import Mathlib

/-!
A shallow embedding of the dependency-resolution engine of the
`satisfactory_factory_planner` program (`src/main.rs`), together with theorems
settling the specification claims about it.

Modelling conventions, used consistently below:

* Rust `f32` quantities are modelled as exact rationals (`ℚ`).  The program
  only adds, subtracts, multiplies, divides and compares these quantities, so
  the rational model is the ideal-arithmetic reading of the code.  In
  `nearest_perfect_split` the program computes natural-log expressions in
  `f32` only to obtain integer ceilings; those ceilings are modelled by their
  exact integer characterisations (documented at the definitions).
* Rust `HashMap<String, A>` is modelled as an association list with unique
  keys (`alookup` is lookup, `insertOv` the overwriting insert used by
  `collect`, `addTo` the `get_default(..) += q` pattern).  Iteration order of
  a `HashMap` is unspecified in Rust; the model fixes list order.  `HashMap`
  equality (`==`) is key-set plus per-key value equality, modelled by
  `mapBEq`.
* Recursion that is bounded in Rust only by the recipe graph (or not bounded
  at all, for the `loop`/`while` constructs) is modelled with an explicit
  fuel parameter returning `Option`; `none` means the fuel ran out or a Rust
  `panic!`/`expect` was hit (noted at each definition).
-/

attribute [local semireducible] Rat.add Rat.mul Rat.sub Rat.inv

namespace Planner

/-- Lookup in an association list (Rust `HashMap::get`). -/
def alookup {A : Type} : List (String × A) → String → Option A
  | [], _ => none
  | (k, v) :: rest, key => if k = key then some v else alookup rest key

/-- Lookup with a default value (Rust `map.get(k).unwrap_or(&d)`). -/
def alookupD {A : Type} (m : List (String × A)) (key : String) (d : A) : A :=
  (alookup m key).getD d

/-- Overwriting insert (what `collect::<HashMap<_,_>>()` does per element:
a later pair with the same key overwrites the earlier one). -/
def insertOv {A : Type} : List (String × A) → String → A → List (String × A)
  | [], key, v => [(key, v)]
  | (k, w) :: rest, key, v =>
    if k = key then (k, v) :: rest else (k, w) :: insertOv rest key v

/-- Rust `it.collect::<HashMap<_,_>>()` on a list of pairs. -/
def collectMap {A : Type} (l : List (String × A)) : List (String × A) :=
  l.foldl (fun acc kv => insertOv acc kv.1 kv.2) []

/-- Maps from product names to rates, standing in for `HashMap<String, f32>`. -/
abbrev QMap := List (String × ℚ)

/-- Maps from names to optional budgets, `HashMap<String, Option<f32>>`. -/
abbrev QOMap := List (String × Option ℚ)

/-- The `*map.get_default(&k) += q` pattern of the program's `DefaultDict`:
add `q` to the entry of `k`, inserting a fresh entry (at the end) when
missing. -/
def addTo : QMap → String → ℚ → QMap
  | [], key, q => [(key, q)]
  | (k, v) :: rest, key, q =>
    if k = key then (k, v + q) :: rest else (k, v) :: addTo rest key q

/-- Add every entry of `m2` into `m1` (merging the per-key `+=` updates of
one tally sub-pass into the enclosing one). -/
def mapAdd (m1 m2 : QMap) : QMap :=
  m2.foldl (fun acc kv => addTo acc kv.1 kv.2) m1

/-- The nested `*machines.get_default(&machine).get_default(&name) += q`
update. -/
def addTo2 : List (String × QMap) → String → String → ℚ → List (String × QMap)
  | [], machine, key, q => [(machine, [(key, q)])]
  | (k, m) :: rest, machine, key, q =>
    if k = machine then (k, addTo m key q) :: rest
    else (k, m) :: addTo2 rest machine key q

/-- Scale every value of a map by `a` (used to state the scaling lemmas;
multiplication on the right, as in the program's `*q *= adjustment`). -/
def scaleMap (a : ℚ) (m : QMap) : QMap :=
  m.map (fun kv => (kv.1, kv.2 * a))

/-- Rust `HashMap` equality (`==`): same key set, equal values key-by-key.
On the association lists produced by the model every key is looked up in the
other map in both directions, which is exactly extensional equality of the
two lookup functions restricted to present keys. -/
def mapBEq (m1 m2 : QMap) : Bool :=
  m1.all (fun kv => alookup m2 kv.1 == some kv.2) &&
    m2.all (fun kv => alookup m1 kv.1 == some kv.2)

/-- Monadic map over `Option` (Rust: a loop whose body may `panic!` or, in
the model, run out of fuel). Defined by hand so that its equations are plain
structural recursion. -/
def mapMO {A B : Type} (f : A → Option B) : List A → Option (List B)
  | [] => some []
  | a :: as => (f a).bind fun b => (mapMO f as).map (b :: ·)

/-- Minimum of a list of rationals (Rust
`iter().min_by(|a, b| a.partial_cmp(b).unwrap_or(Equal))`; on the NaN-free
rational model this is the plain minimum, `none` on an empty list). -/
def lowestOf : List ℚ → Option ℚ
  | [] => none
  | q :: rest =>
    match lowestOf rest with
    | none => some q
    | some m => some (min q m)

/-- The hard-coded `BASIC_INGREDIENTS` list of `main.rs`. -/
def BASIC_INGREDIENTS : List String :=
  ["Coal", "Limestone", "Iron Ore", "Copper Ore", "Bauxite", "Caterium Ore",
   "Raw Quartz", "Sulfur", "Crude Oil", "Water"]

/-- The `Recipe` record of `main.rs` (rates in items per minute). -/
structure Recipe where
  machine : String
  ingredients : List (String × ℚ)
  products : List (String × ℚ)
deriving DecidableEq

mutual

/-- The `Source` enum of `main.rs`: where a quantity of a product comes
from. -/
inductive Source where
  | recipe (machine : String) (machine_quantity : ℚ)
      (byproducts : List (String × ℚ)) (ingredients : List Product)
  | supply
  | byproduct

/-- The `Product` tree node of `main.rs`. -/
inductive Product where
  | mk (name : String) (unsupplied : ℚ) (sources : List (ℚ × Source))

end

/-- Field accessor for `Product.name`. -/
def Product.name : Product → String
  | .mk n _ _ => n

/-- Field accessor for `Product.unsupplied`. -/
def Product.unsupplied : Product → ℚ
  | .mk _ u _ => u

/-- Field accessor for `Product.sources`. -/
def Product.sources : Product → List (ℚ × Source)
  | .mk _ _ s => s

/-- The `IndexedMap` of `main.rs`: recipe lists per product name plus the
active-index overlay. -/
structure IndexedMap where
  map : List (String × List Recipe)
  index : List (String × ℕ)

/-- Helper for `IndexedMap::from`: `map.get_default(&key).push(val)`. -/
def pushRecipe : List (String × List Recipe) → String → Recipe →
    List (String × List Recipe)
  | [], key, r => [(key, [r])]
  | (k, rs) :: rest, key, r =>
    if k = key then (k, rs ++ [r]) :: rest else (k, rs) :: pushRecipe rest key r

/-- The `From<Iterator<(K, V)>>` constructor of `IndexedMap`: push each value
onto its key's list, leaving the index overlay empty. -/
def IndexedMap.fromPairs (l : List (String × Recipe)) : IndexedMap :=
  { map := l.foldl (fun acc kv => pushRecipe acc kv.1 kv.2) []
    index := [] }

/-- `IndexedMap::get`: look the key up, then take the element of the recipe
list at the active index clamped into range
(`index.get(key).unwrap_or(&0).clamp(&0, &(len - 1))`; on naturals the clamp
is `min idx (len - 1)`).  The Rust code `unwrap`s the inner list access,
which can only panic when the recipe list is empty (then `len - 1` under- or
overflows); the model returns `none` in that unreachable-by-construction
case. -/
def IndexedMap.get (m : IndexedMap) (key : String) : Option Recipe :=
  (alookup m.map key).bind fun rs =>
    rs.get? (Nat.min (alookupD m.index key 0) (rs.length - 1))

/-!  The perfect-split search (`nearest_perfect_split` in `main.rs`).

The Rust code drives the search with `f32` logarithms: its `f(x)` is
`ceil(max(0, log3 n - x * log3 2))` and its loop bound is `ceil(log2 n)`
(with `ln 0 = -inf` casting to `0`).  Two models of the search are built
here.  The first replaces the `f32` logarithm arithmetic by exact real
arithmetic, under which those ceilings are exactly characterised as the
least `y` with `n ≤ 2^x * 3^y` and the least `a` with `n ≤ 2^a`, computed
by bounded linear search (`leastSat`).  The second (`fround` onwards) is
bit-exact binary32: every `f32` operation of the Rust code is performed on
`ℚ` and rounded to 24 significand bits, to nearest, ties to even.  The two
models agree at almost every input, but not everywhere: rounding can land
the computed exponent a final ulp above an integer, making the `f32`
ceiling one larger than the exact one (see `lnc31104`).  The `u32`
arithmetic of the loop is modelled on `ℕ` in both: no intermediate value
overflows `u32` in the claimed input range, and `split_value - n` never
underflows in the runs considered (in the exact model `split_value ≥ n`
holds by construction of `f`; in the bit-exact run at `31104` every probed
`split_value` exceeds `n`, as the trace in the C6 counterexample shows). -/

/-- Bounded linear search for the least `y ≥ start` satisfying `p`, giving
up (and returning the reached index) when the fuel runs out. -/
def leastSat (p : ℕ → Bool) : ℕ → ℕ → ℕ
  | 0, y => y
  | fuel + 1, y => if p y then y else leastSat p fuel (y + 1)

/-- Exact-arithmetic idealization of the Rust closure `f`: the least `y`
with `n ≤ 2^x * 3^y`, which is `ceil(max(0, log3 n - x * log3 2))` under
exact real logarithms.  The program's f32 evaluation of that expression can
differ: it rounds each operation to binary32, and when the rounded value
lands just above an integer the ceiling comes out one larger (this happens
at `n = 31104`, `x = 7`; the bit-exact model `fpY` below captures it). -/
def leastPow3 (n x : ℕ) : ℕ :=
  leastSat (fun y => decide (n ≤ 2 ^ x * 3 ^ y)) n 0

/-- Exact model of the Rust loop bound `uceil(ln_c / LN_2)`: the least `a`
with `n ≤ 2^a` (i.e. `ceil(log2 n)`, and `0` for `n = 0`). -/
def ceilLog2 (n : ℕ) : ℕ :=
  leastSat (fun a => decide (n ≤ 2 ^ a)) n 0

/-- The mutable state of the `nearest_perfect_split` loop. -/
structure SplitState where
  result : Option (ℕ × ℕ × ℕ)
  closest : Option ℕ
  xpow2 : ℕ
  lastY : ℕ
  ypow3 : ℕ
deriving DecidableEq

/-- The incremental maintenance of `y_pow3`/`last_y` at the head of each
`nearest_perfect_split` loop iteration: when `y` changed, divide `y_pow3` by
3 if the step was exactly `-1`, otherwise recompute `3^y` directly. -/
def splitUpd (n x : ℕ) (st : SplitState) : SplitState :=
  let y := leastPow3 n x
  if y ≠ st.lastY then
    if y = st.lastY - 1 then { st with ypow3 := st.ypow3 / 3, lastY := y }
    else { st with ypow3 := 3 ^ y, lastY := y }
  else st

/-- One pass of the `for x in 0..=..` loop of `nearest_perfect_split`,
including the incremental maintenance of `y_pow3`, the best-so-far update
and the early `break` on an exact match. -/
def splitLoop (n : ℕ) : List ℕ → SplitState → SplitState
  | [], st => st
  | x :: xs, st =>
    let st1 := splitUpd n x st
    let splitValue := st1.xpow2 * st1.ypow3
    let newDist := splitValue - n
    let doUpdate : Bool :=
      match st1.closest with
      | none => true
      | some c => decide (newDist < c)
    if doUpdate then
      if newDist = 0 then
        { st1 with result := some (x, leastPow3 n x, splitValue) }
      else
        splitLoop n xs
          { st1 with result := some (x, leastPow3 n x, splitValue),
                     closest := some newDist, xpow2 := st1.xpow2 * 2 }
    else splitLoop n xs { st1 with xpow2 := st1.xpow2 * 2 }

/-- `nearest_perfect_split` of `main.rs` under the exact-arithmetic model
described above. -/
def nearest_perfect_split (n : ℕ) : Option (ℕ × ℕ × ℕ) :=
  let y0 := leastPow3 n 0
  (splitLoop n (List.range (ceilLog2 n + 1))
      { result := none, closest := none, xpow2 := 1, lastY := y0,
        ypow3 := 3 ^ y0 }).result

/-- The split value probed at loop iteration `x` of `nearest_perfect_split`:
`2^x` times `3^y` for the least admissible `y` at that `x`. -/
def cand (n x : ℕ) : ℕ :=
  2 ^ x * 3 ^ leastPow3 n x

/-!  The bit-exact binary32 model of `nearest_perfect_split`.

Binary32 values are carried as exact rationals and every `f32` operation of
the Rust code (`/`, `*`, `+`) is followed by `fround`, round-to-nearest
with ties to even onto a 24-bit significand.  The exponent is left
unbounded: all values arising in the modelled computations are well inside
the normal f32 range, so overflow, underflow and subnormal rounding never
come into play.  `ceil` and `max 0.0` on f32 values are exact (every
integer of this magnitude is representable) and are modelled directly; the
`as u32` cast of a non-negative value is `Int.toNat` of the ceiling. -/

/-- Powers of two with an integer exponent, as rationals. -/
def pow2Z (e : ℤ) : ℚ :=
  if 0 ≤ e then ((2 : ℚ) ^ e.toNat) else 1 / (2 : ℚ) ^ (-e).toNat

/-- Fuelled bit length of a natural number (the fuel only needs to cover
the bit count, so `bitLen` passes the number itself). -/
def bitLenAux : ℕ → ℕ → ℕ
  | 0, _ => 0
  | fuel + 1, n => if n = 0 then 0 else bitLenAux fuel (n / 2) + 1

/-- Bit length of a natural number: `0` for `0`, else `⌊log2 n⌋ + 1`. -/
def bitLen (n : ℕ) : ℕ := bitLenAux n n

/-- The floor of `log2 q` for a positive rational `q`: the bit lengths of
numerator and denominator put it within one of `e0`, and the comparisons
settle it. -/
def floorLog2Q (q : ℚ) : ℤ :=
  let e0 : ℤ := (bitLen q.num.natAbs : ℤ) - (bitLen q.den : ℤ)
  if pow2Z (e0 + 1) ≤ q then e0 + 1
  else if pow2Z e0 ≤ q then e0
  else e0 - 1

/-- Round a rational to binary32: scale the magnitude to `[2^23, 2^24)`,
round to an integer significand (to nearest, ties to even), scale back.
The exponent is unbounded (see the section comment). -/
def fround (q : ℚ) : ℚ :=
  if q = 0 then 0
  else
    let a := if q < 0 then -q else q
    let e := floorLog2Q a
    let scaled := a * pow2Z (23 - e)
    let fl := ⌊scaled⌋
    let frac := scaled - (fl : ℚ)
    let m : ℤ :=
      if frac < 1 / 2 then fl
      else if 1 / 2 < frac then fl + 1
      else if fl % 2 = 0 then fl else fl + 1
    (if q < 0 then -(m : ℚ) else (m : ℚ)) * pow2Z (e - 23)

/-- `uceil` of `main.rs`: `x.ceil() as u32`, where the cast saturates
negative values to `0` (the values reaching it here are finite). -/
def uceil (q : ℚ) : ℕ := (⌈q⌉).toNat

/-- The constant `LN_3` of `main.rs`: the decimal literal
`1.0986122886681098f32`, i.e. that rational rounded to binary32
(`2303957 / 2^21 = 1.0986123085021973`). -/
def LN_3 : ℚ := fround (10986122886681098 / 10 ^ 16)

/-- The constant `std::f32::consts::LN_2`: the standard library's decimal
expansion `0.693147180559945309417232121458176568` rounded to binary32
(`1453635 / 2^21 = 0.6931471824645996`). -/
def LN_2 : ℚ := fround (693147180559945309417232121458176568 / 10 ^ 36)

/-- The constant `FRAC_LN_2_LN_3 = LN_2 / LN_3` of `main.rs`,
const-evaluated as a binary32 division (`10585245 / 2^24`). -/
def FRAC_LN_2_LN_3 : ℚ := fround (LN_2 / LN_3)

/-- The closure `f` of `nearest_perfect_split` under bit-exact binary32
arithmetic: `uceil((-FRAC_LN_2_LN_3 * (x as f32) + b).max(0.0))`, with the
multiply and the add each rounded (the negation is exact, and `x as f32`
is exact for the small `x` reached by the loop but is rounded here for
uniformity). -/
def fpY (b : ℚ) (x : ℕ) : ℕ :=
  uceil (max (fround (fround (-FRAC_LN_2_LN_3 * fround (x : ℚ)) + b)) 0)

/-- The `last_y`/`y_pow3` maintenance of the loop under the bit-exact
model: identical to `splitUpd` with `fpY b` in place of `leastPow3 n`. -/
def fpSplitUpd (b : ℚ) (x : ℕ) (st : SplitState) : SplitState :=
  let y := fpY b x
  if y ≠ st.lastY then
    if y = st.lastY - 1 then { st with ypow3 := st.ypow3 / 3, lastY := y }
    else { st with ypow3 := 3 ^ y, lastY := y }
  else st

/-- The `for x in 0..=..` loop of `nearest_perfect_split` under the
bit-exact model: identical to `splitLoop` with `fpY b` supplying the
exponent. -/
def fpSplitLoop (c : ℕ) (b : ℚ) : List ℕ → SplitState → SplitState
  | [], st => st
  | x :: xs, st =>
    let st1 := fpSplitUpd b x st
    let splitValue := st1.xpow2 * st1.ypow3
    let newDist := splitValue - c
    let doUpdate : Bool :=
      match st1.closest with
      | none => true
      | some cd => decide (newDist < cd)
    if doUpdate then
      if newDist = 0 then
        { st1 with result := some (x, fpY b x, splitValue) }
      else
        fpSplitLoop c b xs
          { st1 with result := some (x, fpY b x, splitValue),
                     closest := some newDist, xpow2 := st1.xpow2 * 2 }
    else fpSplitLoop c b xs { st1 with xpow2 := st1.xpow2 * 2 }

/-- `nearest_perfect_split` under bit-exact binary32 arithmetic, as a
function of `lnc`, the binary32 value of `(c as f32).ln()` — the one
platform-library quantity in the function.  As in the Rust code,
`b = ln_c / LN_3` is computed once and the loop bound is
`uceil(ln_c / LN_2)`, each with one rounding. -/
def nearest_perfect_split_f32 (lnc : ℚ) (c : ℕ) : Option (ℕ × ℕ × ℕ) :=
  let b := fround (lnc / LN_3)
  let y0 := fpY b 0
  (fpSplitLoop c b (List.range (uceil (fround (lnc / LN_2)) + 1))
      { result := none, closest := none, xpow2 := 1, lastY := y0,
        ypow3 := 3 ^ y0 }).result

/-- The binary32 value of `ln 31104`.  `31104 = 2^7 * 3^5` is below `2^24`,
so `31104 as f32` is exact, and
`ln 31104 = 7 ln 2 + 5 ln 3 = 10.34509170726016…` rounds to the binary32
value `10847615 / 2^20 = 10.345091819763184`.  The true logarithm sits
`0.24` half-ulps above this value, hence `0.76` half-ulps away from the
nearest rounding boundary, so every faithfully rounded `logf` (error below
half an ulp, as on the platforms Rust targets) returns exactly this value;
the half-ulp enclosure is proved against `Real.log` in
`lnc31104_near_log`. -/
def lnc31104 : ℚ := 10847615 / 2 ^ 20

/-!  The recursive expander `resolve_product_dependencies`.

In Rust the recursion is bounded only by the recipe graph (expanding a
recipe creates fresh child nodes and recurses into them), so the model takes
a fuel argument and returns `none` when the fuel runs out; `none` is also
returned where the Rust code would `expect`-panic on a recipe that does not
list the product it is keyed under. -/

/-- The shadowed byproduct map handed to ingredient children: every entry of
the caller's `available_byproducts`, decremented by the recipe's own
byproduct quantity for that name (entries may become `≤ 0` but are kept). -/
def shadowMap (B bm : QMap) : QMap :=
  B.map fun kv => (kv.1, kv.2 - alookupD bm kv.1 0)

/-- The rule-2 test `available_byproducts.get(name).map_or(false, |q| *q > 0.0)`. -/
def bypAvailable (B : QMap) (name : String) : Bool :=
  match alookup B name with
  | some q => decide (0 < q)
  | none => false

/-- Phase 1 of `resolve_product_dependencies`: walk the existing sources,
recursing (via `rec`) into every ingredient of every existing Recipe source
with the shadowed byproduct map; leaf sources pass through unchanged. -/
def resolveSources (rec : Product → QMap → Option Product) (B : QMap) :
    List (ℚ × Source) → Option (List (ℚ × Source)) :=
  mapMO fun qs =>
    match qs with
    | (q, .recipe m mq byps ings) =>
      let bm := collectMap byps
      (mapMO (fun ing => rec ing (shadowMap B bm)) ings).map
        fun ings' => (q, .recipe m mq byps ings')
    | (q, s) => some (q, s)

/-- Phase 2 of `resolve_product_dependencies`: when `unsupplied > 0`, push
exactly one new source entry chosen by the priority chain of the Rust code
(basic/available supply, then positive byproduct, then recipe expansion,
then fallback supply).  `rec` resolves the freshly created ingredient
children of an expanded recipe.  Returns `none` where the Rust code would
panic (`expect`) because the recipe found under `name` does not list `name`
among its products. -/
def satisfyStep (R : IndexedMap) (avail : List String)
    (rec : Product → QMap → Option Product) (name : String) (u : ℚ)
    (B : QMap) (sources1 : List (ℚ × Source)) : Option (List (ℚ × Source)) :=
  if 0 < u then
    if BASIC_INGREDIENTS.contains name || avail.contains name then
      some (sources1 ++ [(u, .supply)])
    else if bypAvailable B name then
      some (sources1 ++ [(u, .byproduct)])
    else
      match R.get name with
      | none => some (sources1 ++ [(u, .supply)])
      | some recipe =>
        if 0 < u then
          match recipe.products.find? (fun pr => pr.1 == name) with
          | none => none
          | some pr =>
            let prodFactor := u / pr.2
            let byps := recipe.products.filterMap fun rp =>
              if rp.1 ≠ name then some (rp.1, rp.2 * prodFactor) else none
            let bm := collectMap byps
            (mapMO (fun rp => rec (.mk rp.1 (rp.2 * prodFactor) []) (shadowMap B bm))
                recipe.ingredients).map
              fun ings =>
                sources1 ++ [(u, .recipe recipe.machine prodFactor byps ings)]
        else some sources1
  else some sources1

/-- `resolve_product_dependencies` of `main.rs` (fuelled).  Phase 1 resolves
the existing tree, phase 2 satisfies the node's own unsupplied demand, and
the node's `unsupplied` is set to `0` on return. -/
def resolve_product_dependencies (R : IndexedMap) (avail : List String) :
    ℕ → Product → QMap → Option Product
  | 0, _, _ => none
  | fuel + 1, p, B =>
    (resolveSources (fun c B' => resolve_product_dependencies R avail fuel c B')
        B p.sources).bind fun s1 =>
      (satisfyStep R avail
          (fun c B' => resolve_product_dependencies R avail fuel c B')
          p.name p.unsupplied B s1).map
        fun s2 => .mk p.name 0 s2

/-- `Product::adjust_quantities` of `main.rs` (fuelled): multiply the node's
`unsupplied`, every source quantity, every Recipe `machine_quantity` and
every byproduct quantity by `a`, recursing into ingredient children. -/
def Product.adjust_quantities : ℕ → ℚ → Product → Option Product
  | 0, _, _ => none
  | fuel + 1, a, .mk n u sources =>
    (mapMO (fun (qs : ℚ × Source) =>
        match qs with
        | (q, .recipe m mq byps ings) =>
          (mapMO (fun c => Product.adjust_quantities fuel a c) ings).map fun ings' =>
            (q * a, Source.recipe m (mq * a)
              (byps.map fun b => (b.1, b.2 * a)) ings')
        | (q, s) => some (q * a, s)) sources).map
      fun s' => .mk n (u * a) s'

/-- Source-list walk of `apply_insufficient_supply_proportions`: recipe
sources keep their quantity and recurse (via `rec`) into their ingredients;
leaf sources whose node name has a proportion are split, assigning the node's
`unsupplied` to the removed part (later assignments overwrite earlier ones,
as in the Rust loop).  Returns the rewritten sources and the final
`unsupplied`. -/
def applyPropsSources (props : QMap) (name : String)
    (rec : Product → Option Product) :
    List (ℚ × Source) → ℚ → Option (List (ℚ × Source) × ℚ)
  | [], u => some ([], u)
  | (q, s) :: rest, u =>
    match s with
    | .recipe m mq byps ings =>
      (mapMO rec ings).bind fun ings' =>
        (applyPropsSources props name rec rest u).map fun ru =>
          ((q, .recipe m mq byps ings') :: ru.1, ru.2)
    | s =>
      match alookup props name with
      | some prop =>
        (applyPropsSources props name rec rest (q - q * prop)).map fun ru =>
          ((q * prop, s) :: ru.1, ru.2)
      | none =>
        (applyPropsSources props name rec rest u).map fun ru =>
          ((q, s) :: ru.1, ru.2)

/-- `apply_insufficient_supply_proportions` of `main.rs` (fuelled): scale the
insufficient leaves, record the removed amount in `unsupplied`, and retain
only sources with positive quantity. -/
def apply_insufficient_supply_proportions (props : QMap) :
    ℕ → Product → Option Product
  | 0, _ => none
  | fuel + 1, .mk name u sources =>
    (applyPropsSources props name
        (fun c => apply_insufficient_supply_proportions props fuel c)
        sources u).map
      fun su => .mk name su.2 (su.1.filter fun qs => decide (0 < qs.1))

/-!  The totals aggregator `DependencyResolutionTotals`. -/

/-- The six tallies of `DependencyResolutionTotals`. -/
structure DependencyResolutionTotals where
  inputs : QMap
  byproduct_inputs : QMap
  intermediate_ingredients : QMap
  outputs : QMap
  byproducts : QMap
  machines : List (String × QMap)
deriving DecidableEq

/-- The empty totals record (`DependencyResolutionTotals::new`). -/
def totalsEmpty : DependencyResolutionTotals :=
  ⟨[], [], [], [], [], []⟩

/-- Merge two totals records by adding every tally of the second into the
first (the model of interleaved `get_default(..) += q` updates on one
mutable record: per-key sums agree, only association-list order can
differ). -/
def totalsAdd (t1 t2 : DependencyResolutionTotals) : DependencyResolutionTotals where
  inputs := mapAdd t1.inputs t2.inputs
  byproduct_inputs := mapAdd t1.byproduct_inputs t2.byproduct_inputs
  intermediate_ingredients :=
    mapAdd t1.intermediate_ingredients t2.intermediate_ingredients
  outputs := mapAdd t1.outputs t2.outputs
  byproducts := mapAdd t1.byproducts t2.byproducts
  machines :=
    t2.machines.foldl
      (fun acc mm => mm.2.foldl (fun acc2 kv => addTo2 acc2 mm.1 kv.1 kv.2) acc)
      t1.machines

/-- The classification of one sub-source of an ingredient child inside
`tally_node`: a Recipe sub-source adds its quantity to the intermediates and
recursively tallies the whole child (once per Recipe sub-source, as the Rust
loop does), a Supply sub-source adds to the inputs, a Byproduct sub-source
to the byproduct inputs.  `tn` is the recursive tally at the next fuel
level. -/
def tallyChildSource (tn : Product → Option DependencyResolutionTotals)
    (child : Product) (cs : ℚ × Source) :
    Option DependencyResolutionTotals :=
  match cs.2 with
  | .recipe _ _ _ _ =>
    (tn child).map fun t =>
      totalsAdd
        { totalsEmpty with intermediate_ingredients := [(child.name, cs.1)] } t
  | .supply => some { totalsEmpty with inputs := [(child.name, cs.1)] }
  | .byproduct =>
    some { totalsEmpty with byproduct_inputs := [(child.name, cs.1)] }

/-- The contribution of one ingredient child inside `tally_node`: classify
each of the child's own sources. -/
def tallyChild (tn : Product → Option DependencyResolutionTotals)
    (child : Product) : Option DependencyResolutionTotals :=
  (mapMO (tallyChildSource tn child) child.sources).map
    fun l => l.foldl totalsAdd totalsEmpty

/-- The contribution of one source entry of the tallied node: a Recipe
source tallies its machine count and byproducts and then every ingredient
child; leaf sources of the node itself contribute nothing. -/
def tallyEntry (tn : Product → Option DependencyResolutionTotals)
    (name : String) (qs : ℚ × Source) : Option DependencyResolutionTotals :=
  match qs.2 with
  | .recipe m mq byps ings =>
    (mapMO (tallyChild tn) ings).map fun l =>
      l.foldl totalsAdd
        { totalsEmpty with
          machines := addTo2 [] m name mq
          byproducts := byps.foldl (fun acc b => addTo acc b.1 b.2) [] }
  | _ => some totalsEmpty

/-- `tally_node` of `main.rs` (fuelled): tally machine counts and byproducts
of every Recipe source of this node, then classify each ingredient child's
sources. -/
def tallyNode : ℕ → Product → Option DependencyResolutionTotals
  | 0, _ => none
  | fuel + 1, p =>
    (mapMO (tallyEntry (fun c => tallyNode fuel c) p.name) p.sources).map
      fun l => l.foldl totalsAdd totalsEmpty

/-- `tally_trees` / `DependencyResolutionTotals::from` (fuelled): every
source quantity of a root contributes to `outputs[root.name]`, then the root
is tallied with `tallyNode`. -/
def tallyTrees (fuel : ℕ) (trees : List Product) :
    Option DependencyResolutionTotals :=
  (mapMO (fun p =>
      let outs := p.sources.foldl (fun acc qs => addTo acc p.name qs.1) []
      (tallyNode fuel p).map fun t =>
        totalsAdd { totalsEmpty with outputs := outs } t) trees).map
    fun l => l.foldl totalsAdd totalsEmpty

/-!  The supply reconciler and the byproduct fixed-point loop
(`resolve_dependency_trees`). -/

/-- `compute_supply_proportions` of `main.rs`: for every explicitly budgeted
ingredient that occurs in `inputs`, the pair `(name, budget / required)`. -/
def compute_supply_proportions (inputs : QMap) (ingredients : QOMap) :
    List (String × ℚ) :=
  ingredients.filterMap fun kv =>
    match alookup inputs kv.1 with
    | some inq => kv.2.map fun avail => (kv.1, avail / inq)
    | none => none

/-- The scale-down arm of the reconciliation loop: multiply every tree by
the lowest of the (stale, pre-loop) supply proportions, when any exists. -/
def scaleDownStep (adjFuel : ℕ) (initialProps : List (String × ℚ))
    (trees : List Product) : Option (List Product) :=
  match lowestOf (initialProps.map Prod.snd) with
  | none => some trees
  | some a => mapMO (Product.adjust_quantities adjFuel a) trees

/-- The `while !insufficient_ingredients.is_empty() || ..` reconciliation
loop inside `resolve_dependency_trees` (fuelled).  Note that the scale-down
arm uses the pre-loop `initialProps`, exactly as the Rust code keeps using
`initial_supply_proportions` inside the loop. -/
def reconcileLoop (R : IndexedMap) (resupply : Bool)
    (resolveFuel adjFuel tallyFuel : ℕ) (ingredients : QOMap)
    (ingredient_set : List String) (input_byproducts : QMap)
    (byproduct_some_set : QOMap) (initialProps : List (String × ℚ)) :
    ℕ → List Product → DependencyResolutionTotals → QMap → QMap →
    Option (List Product × DependencyResolutionTotals)
  | fuel, trees, totals, insuffIng, insuffByp =>
    if insuffIng.isEmpty && insuffByp.isEmpty then some (trees, totals)
    else
      match fuel with
      | 0 => none
      | fuel + 1 =>
        (if !insuffIng.isEmpty then
            if resupply then
              (mapMO (fun t =>
                  (apply_insufficient_supply_proportions insuffIng adjFuel t).bind
                    fun t' =>
                      resolve_product_dependencies R
                        ((ingredients.filter
                          fun kv => (alookup insuffIng kv.1).isNone).map Prod.fst)
                        resolveFuel t' input_byproducts) trees)
            else scaleDownStep adjFuel initialProps trees
          else some trees).bind fun trees1 =>
        (if !insuffByp.isEmpty then
            mapMO (fun t =>
                (apply_insufficient_supply_proportions insuffByp adjFuel t).bind
                  fun t' =>
                    resolve_product_dependencies R ingredient_set resolveFuel t' [])
              trees1
          else some trees1).bind fun trees2 =>
        (tallyTrees tallyFuel trees2).bind fun totals' =>
        reconcileLoop R resupply resolveFuel adjFuel tallyFuel ingredients
          ingredient_set input_byproducts byproduct_some_set initialProps
          fuel trees2 totals'
          (collectMap
            ((compute_supply_proportions totals'.inputs ingredients).filter
              fun kv => decide (kv.2 < 1)))
          (collectMap
            ((compute_supply_proportions totals'.byproduct_inputs
                byproduct_some_set).filter fun kv => decide (kv.2 < 1)))

/-- The `quantity_requested_trees` block of `resolve_dependency_trees`:
build a tree per explicitly rated request, resolve, reconcile insufficiency,
then decrement the consumed budgets.  Returns the trees, the updated
ingredient budgets and the updated byproduct pool.  When there is no rated
request the whole block is skipped. -/
def ratedBlock (R : IndexedMap) (resupply : Bool)
    (resolveFuel adjFuel tallyFuel innerFuel : ℕ)
    (products : List (String × Option ℚ)) (ingredients : QOMap)
    (input_byproducts : QMap) :
    Option (List Product × QOMap × QMap) :=
  let trees0 := products.filterMap fun nq => nq.2.map fun q => Product.mk nq.1 q []
  if trees0.isEmpty then some ([], ingredients, input_byproducts)
  else
    let ingredient_set := ingredients.map Prod.fst
    (mapMO (fun t =>
        resolve_product_dependencies R ingredient_set resolveFuel t
          input_byproducts) trees0).bind fun trees1 =>
    (tallyTrees tallyFuel trees1).bind fun totals1 =>
    let initialProps := compute_supply_proportions totals1.inputs ingredients
    let byproduct_some_set := input_byproducts.map fun kv => (kv.1, some kv.2)
    (reconcileLoop R resupply resolveFuel adjFuel tallyFuel ingredients
      ingredient_set input_byproducts byproduct_some_set initialProps
      innerFuel trees1 totals1
      (collectMap (initialProps.filter fun kv => decide (kv.2 < 1)))
      (collectMap
        ((compute_supply_proportions totals1.byproduct_inputs
            byproduct_some_set).filter fun kv => decide (kv.2 < 1)))).bind
      fun tt =>
    some (tt.1,
      ingredients.map fun kv =>
        match alookup tt.2.inputs kv.1 with
        | some used => (kv.1, kv.2.map fun avail => max (avail - used) 0)
        | none => kv,
      input_byproducts.map fun kv =>
        match alookup tt.2.byproduct_inputs kv.1 with
        | some used => (kv.1, max (kv.2 - used) 0)
        | none => kv)

/-- The default demand of a request given without a rate: the primary rate
of the product's active recipe, or `1.0` when there is no recipe or the
recipe does not list the product. -/
def defaultRate (R : IndexedMap) (name : String) : ℚ :=
  match R.get name with
  | none => 1
  | some recipe =>
    match recipe.products.find? (fun pr => pr.1 == name) with
    | none => 1
    | some pr => pr.2

/-- The `quantity_unrequested_trees` block of `resolve_dependency_trees`:
build a tree per unrated request with the default demand, resolve against
the post-consumption budgets, then multiply every tree by the lowest summed
supply proportion (inputs and byproduct inputs added per name) — whatever
that lowest value is. -/
def unratedBlock (R : IndexedMap) (resolveFuel adjFuel tallyFuel : ℕ)
    (products : List (String × Option ℚ)) (ingredients : QOMap)
    (input_byproducts : QMap) : Option (List Product) :=
  let trees0 := products.filterMap fun nq =>
    match nq.2 with
    | none => some (Product.mk nq.1 (defaultRate R nq.1) [])
    | some _ => none
  if trees0.isEmpty then some []
  else
    let ingredient_set := ingredients.map Prod.fst
    (mapMO (fun t =>
        resolve_product_dependencies R ingredient_set resolveFuel t
          input_byproducts) trees0).bind fun trees1 =>
    (tallyTrees tallyFuel trees1).bind fun totals =>
    let byproduct_some_set := input_byproducts.map fun kv => (kv.1, some kv.2)
    let props := (compute_supply_proportions totals.inputs ingredients ++
        compute_supply_proportions totals.byproduct_inputs
          byproduct_some_set).foldl (fun acc kv => addTo acc kv.1 kv.2) []
    match lowestOf (props.map Prod.snd) with
    | none => some trees1
    | some a => mapMO (Product.adjust_quantities adjFuel a) trees1

/-- One iteration of the outer `loop` of `resolve_dependency_trees`: rated
block, unrated block against the decremented budgets, concatenate, tally.
Returns the forest, the totals and the updated ingredient budgets. -/
def outerIter (R : IndexedMap) (resupply : Bool)
    (resolveFuel adjFuel tallyFuel innerFuel : ℕ)
    (products : List (String × Option ℚ)) (ingredients : QOMap)
    (initialByp : QMap) :
    Option (List Product × DependencyResolutionTotals × QOMap) :=
  (ratedBlock R resupply resolveFuel adjFuel tallyFuel innerFuel
    products ingredients initialByp).bind fun rb =>
  (unratedBlock R resolveFuel adjFuel tallyFuel products
    rb.2.1 rb.2.2).bind fun unratedTrees =>
  (tallyTrees tallyFuel (rb.1 ++ unratedTrees)).bind fun totals =>
  some (rb.1 ++ unratedTrees, totals, rb.2.1)

/-- The outer byproduct fixed-point `loop` of `resolve_dependency_trees`
(fuelled): run one iteration; when `reuse_byproducts` is on and the tallied
byproducts differ (HashMap equality) from the current `initial_byproducts`,
replace them and iterate, otherwise return the forest and totals. -/
def rdtLoop (R : IndexedMap) (resupply reuse : Bool)
    (resolveFuel adjFuel tallyFuel innerFuel : ℕ)
    (products : List (String × Option ℚ)) :
    ℕ → QOMap → QMap → Option (List Product × DependencyResolutionTotals)
  | 0, _, _ => none
  | fuel + 1, ingredients, initialByp =>
    (outerIter R resupply resolveFuel adjFuel tallyFuel innerFuel
      products ingredients initialByp).bind fun r =>
    if reuse && !mapBEq r.2.1.byproducts initialByp then
      rdtLoop R resupply reuse resolveFuel adjFuel tallyFuel innerFuel
        products fuel r.2.2 r.2.1.byproducts
    else some (r.1, r.2.1)

/-- `resolve_dependency_trees` of `main.rs` (fuelled): collect the
ingredient list into a map, seed the byproduct pool empty, and run the outer
loop. -/
def resolve_dependency_trees (R : IndexedMap)
    (products ingredients : List (String × Option ℚ)) (resupply reuse : Bool)
    (resolveFuel adjFuel tallyFuel innerFuel outerFuel : ℕ) :
    Option (List Product × DependencyResolutionTotals) :=
  rdtLoop R resupply reuse resolveFuel adjFuel tallyFuel innerFuel products
    outerFuel (collectMap ingredients) []

/-!  Predicates used to state the claims. -/

mutual

/-- A source is fully resolved: leaves always are, a Recipe source is when
all its ingredient children are. -/
inductive SourceResolved : Source → Prop where
  | supply : SourceResolved .supply
  | byproduct : SourceResolved .byproduct
  | recipe {m : String} {mq : ℚ} {byps : List (String × ℚ)}
      {ings : List Product} :
      (∀ p ∈ ings, AllResolved p) → SourceResolved (.recipe m mq byps ings)

/-- Every node of the tree has `unsupplied = 0` (claim C8's invariant). -/
inductive AllResolved : Product → Prop where
  | mk {n : String} {u : ℚ} {sources : List (ℚ × Source)} :
      u = 0 → (∀ qs ∈ sources, SourceResolved qs.2) →
      AllResolved (.mk n u sources)

end

mutual

/-- Entry preservation for the frame property (claim C10): a pre-existing
source entry keeps its quantity and tag (and, for Recipe entries, its
machine, machine quantity and byproducts, with the same number of ingredient
children, each preserved recursively). -/
inductive EntryPres : (ℚ × Source) → (ℚ × Source) → Prop where
  | supply {q : ℚ} : EntryPres (q, .supply) (q, .supply)
  | byproduct {q : ℚ} : EntryPres (q, .byproduct) (q, .byproduct)
  | recipe {q mq : ℚ} {m : String} {byps : List (String × ℚ)}
      {ings ings' : List Product} :
      List.Forall₂ NodePres ings ings' →
      EntryPres (q, .recipe m mq byps ings) (q, .recipe m mq byps ings')

/-- Node preservation for the frame property (claim C10): the name is kept,
every pre-existing source entry is still present at the same position with
the same quantity and tag, and any new entries come after them. -/
inductive NodePres : Product → Product → Prop where
  | mk {name : String} {u u' : ℚ} {sources pre rest : List (ℚ × Source)} :
      List.Forall₂ EntryPres sources pre →
      NodePres (.mk name u sources) (.mk name u' (pre ++ rest))

end

mutual

/-- Entry scaling (claims C3/C4): the source quantity is multiplied by `a`;
a Recipe entry additionally has its machine quantity and every byproduct
quantity multiplied by `a` and its children scaled recursively. -/
inductive EntryScaled (a : ℚ) : (ℚ × Source) → (ℚ × Source) → Prop where
  | supply {q : ℚ} : EntryScaled a (q, .supply) (q * a, .supply)
  | byproduct {q : ℚ} : EntryScaled a (q, .byproduct) (q * a, .byproduct)
  | recipe {q mq : ℚ} {m : String} {byps : List (String × ℚ)}
      {ings ings' : List Product} :
      List.Forall₂ (ProductScaled a) ings ings' →
      EntryScaled a (q, .recipe m mq byps ings)
        (q * a, .recipe m (mq * a) (byps.map fun b => (b.1, b.2 * a)) ings')

/-- Tree scaling (claims C3/C4): every numeric quantity of the node — its
`unsupplied`, every source quantity, every Recipe machine quantity and every
byproduct quantity — is multiplied by `a`. -/
inductive ProductScaled (a : ℚ) : Product → Product → Prop where
  | mk {n : String} {u : ℚ} {sources sources' : List (ℚ × Source)} :
      List.Forall₂ (EntryScaled a) sources sources' →
      ProductScaled a (.mk n u sources) (.mk n (u * a) sources')

end

/-!  Concrete data used by the witnesses and counterexamples. -/

/-- An empty recipe index. -/
def Rempty : IndexedMap := { map := [], index := [] }

/-- The resolved forest of the one-product example `want x:1` with nothing
available: a single Supply leaf. -/
def exTrees : List Product := [.mk "x" 0 [((1 : ℚ), .supply)]]

/-- The totals of `exTrees`. -/
def exTotals : DependencyResolutionTotals :=
  ⟨[], [], [], [("x", 1)], [], []⟩

/-- The smelting recipe of the supply examples: 30/min plate from 30/min
Iron Ore. -/
def plateRecipe : Recipe :=
  { machine := "Smelter", ingredients := [("Iron Ore", 30)],
    products := [("plate", 30)] }

/-- Recipe index containing only `plateRecipe`. -/
def Rplate : IndexedMap := IndexedMap.fromPairs [("plate", plateRecipe)]

/-- The resolved tree of a `plate` request of 30/min against `plateRecipe`
with Iron Ore drawn from the basic-ingredient set. -/
def exPlateTree : Product :=
  .mk "plate" 0 [(30, .recipe "Smelter" 1 []
    [.mk "Iron Ore" 0 [(30, .supply)]])]

/-- The totals of `[exPlateTree]`. -/
def exPlateTotals : DependencyResolutionTotals :=
  ⟨[("Iron Ore", 30)], [], [], [("plate", 30)], [],
    [("Smelter", [("plate", 1)])]⟩

/-- Oscillation example, recipe 1: product D from ingredient E. -/
def recipeD : Recipe :=
  { machine := "MD", ingredients := [("E", 1)], products := [("D", 1)] }

/-- Oscillation example, recipe 2: product E from Water, with byproduct D. -/
def recipeE : Recipe :=
  { machine := "ME", ingredients := [("Water", 1)],
    products := [("E", 1), ("D", 1)] }

/-- The recipe index of the oscillation example, built the way
`load_recipes` builds it (each recipe inserted under each of its product
names). -/
def Rosc : IndexedMap :=
  IndexedMap.fromPairs [("D", recipeD), ("E", recipeE), ("D", recipeE)]

/-- Termination of the byproduct fixed-point loop on the oscillating input
`want D:1` with `reuse_byproducts` on: some fuel suffices for the loop to
return. -/
def oscLoopTerminates : Prop :=
  ∃ (fuel : ℕ), ∃ r,
    rdtLoop Rosc false true 10 10 10 10 [("D", some 1)] fuel [] [] = some r

/-!  General lemmas about the helper functions. -/

theorem mapMO_cons_some {A B : Type} {f : A → Option B} {a : A} {as : List A}
    {l' : List B} (h : mapMO f (a :: as) = some l') :
    ∃ b bs, f a = some b ∧ mapMO f as = some bs ∧ l' = b :: bs := by
  simp only [mapMO] at h
  cases hb : f a <;> rw [hb] at h
  · simp at h
  · cases hrest : mapMO f as <;> rw [hrest] at h
    · simp at h
    · simp only [Option.bind_some, Option.map_some'] at h
      exact ⟨_, _, rfl, rfl, (Option.some_injective _ h).symm⟩

theorem mapMO_forall₂ {A B : Type} {f : A → Option B} :
    ∀ {l : List A} {l' : List B}, mapMO f l = some l' →
      List.Forall₂ (fun a b => f a = some b) l l'
  | [], l', h => by
    simp only [mapMO, Option.some_inj] at h
    exact h ▸ List.Forall₂.nil
  | a :: as, l', h => by
    obtain ⟨b, bs, hb, hbs, rfl⟩ := mapMO_cons_some h
    exact List.Forall₂.cons hb (mapMO_forall₂ hbs)

theorem mapMO_length {A B : Type} {f : A → Option B} {l : List A}
    {l' : List B} (h : mapMO f l = some l') : l'.length = l.length :=
  (mapMO_forall₂ h).length_eq.symm

theorem mapMO_mem {A B : Type} {f : A → Option B} :
    ∀ {l : List A} {l' : List B}, mapMO f l = some l' →
      ∀ b ∈ l', ∃ a ∈ l, f a = some b
  | [], l', h => by
    simp only [mapMO, Option.some_inj] at h
    subst h; intro b hb; cases hb
  | a :: as, l', h => by
    obtain ⟨b0, bs, hb, hbs, rfl⟩ := mapMO_cons_some h
    intro b hbmem
    rcases List.mem_cons.mp hbmem with rfl | hbs'
    · exact ⟨a, List.mem_cons_self .., hb⟩
    · obtain ⟨x, hx, hfx⟩ := mapMO_mem hbs b hbs'
      exact ⟨x, List.mem_cons_of_mem _ hx, hfx⟩

theorem alookup_addTo (m : QMap) (k k' : String) (q : ℚ) :
    alookup (addTo m k q) k' =
      if k = k' then some ((alookup m k).getD 0 + q) else alookup m k' := by
  induction m with
  | nil =>
    by_cases h : k = k'
    · subst h; simp [addTo, alookup]
    · simp [addTo, alookup, h]
  | cons hd tl ih =>
    obtain ⟨a, v⟩ := hd
    by_cases hak : a = k
    · subst hak
      simp only [addTo, if_pos rfl]
      by_cases hk' : a = k'
      · subst hk'; simp [alookup]
      · simp [alookup, hk']
    · simp only [addTo, if_neg hak]
      by_cases hk' : a = k'
      · subst hk'
        have hkk' : ¬ k = a := fun h => hak h.symm
        simp [alookup, hkk']
      · simp only [alookup, if_neg hk', if_neg hak, ih]

theorem alookup_scaleMap (a : ℚ) (m : QMap) (k : String) :
    alookup (scaleMap a m) k = (alookup m k).map (· * a) := by
  induction m with
  | nil => simp [scaleMap, alookup]
  | cons hd tl ih =>
    obtain ⟨b, v⟩ := hd
    have h1 : scaleMap a ((b, v) :: tl) = (b, v * a) :: scaleMap a tl := rfl
    rw [h1]
    by_cases h : b = k <;> simp [alookup, h, ih]

theorem scaleMap_addTo (a : ℚ) (m : QMap) (k : String) (q : ℚ) :
    scaleMap a (addTo m k q) = addTo (scaleMap a m) k (q * a) := by
  induction m with
  | nil => simp [scaleMap, addTo]
  | cons hd tl ih =>
    obtain ⟨b, v⟩ := hd
    have hc : scaleMap a ((b, v) :: tl) = (b, v * a) :: scaleMap a tl := rfl
    by_cases h : b = k
    · subst h
      rw [show addTo ((b, v) :: tl) b q = (b, v + q) :: tl from by simp [addTo]]
      rw [show scaleMap a ((b, v + q) :: tl) = (b, (v + q) * a) :: scaleMap a tl
        from rfl]
      rw [hc]
      rw [show addTo ((b, v * a) :: scaleMap a tl) b (q * a)
          = (b, v * a + q * a) :: scaleMap a tl from by simp [addTo]]
      rw [add_mul]
    · rw [show addTo ((b, v) :: tl) k q = (b, v) :: addTo tl k q from by
        simp [addTo, h]]
      rw [show scaleMap a ((b, v) :: addTo tl k q)
          = (b, v * a) :: scaleMap a (addTo tl k q) from rfl]
      rw [ih, hc]
      rw [show addTo ((b, v * a) :: scaleMap a tl) k (q * a)
          = (b, v * a) :: addTo (scaleMap a tl) k (q * a) from by simp [addTo, h]]

theorem scaleMap_mapAdd (a : ℚ) : ∀ (m2 m1 : QMap),
    scaleMap a (mapAdd m1 m2) = mapAdd (scaleMap a m1) (scaleMap a m2)
  | [], m1 => rfl
  | hd :: tl, m1 => by
    have h := scaleMap_mapAdd a tl (addTo m1 hd.1 hd.2)
    rw [scaleMap_addTo] at h
    exact h

theorem lowestOf_eq_none {l : List ℚ} : lowestOf l = none ↔ l = [] := by
  cases l with
  | nil => simp [lowestOf]
  | cons q rest =>
    simp only [lowestOf]
    cases lowestOf rest <;> simp

theorem lowestOf_mem : ∀ {l : List ℚ} {a : ℚ}, lowestOf l = some a → a ∈ l
  | [], a, h => by simp [lowestOf] at h
  | q :: rest, a, h => by
    simp only [lowestOf] at h
    cases hr : lowestOf rest <;> rw [hr] at h
    · simp at h; simp [h]
    · simp only [Option.some_inj] at h
      rcases min_cases q _ with ⟨hmin, _⟩ | ⟨hmin, _⟩ <;> rw [hmin] at h
      · simp [← h]
      · exact List.mem_cons_of_mem _ (h ▸ lowestOf_mem hr)

theorem lowestOf_le : ∀ {l : List ℚ} {a : ℚ}, lowestOf l = some a →
    ∀ x ∈ l, a ≤ x
  | [], a, h => by simp [lowestOf] at h
  | q :: rest, a, h => by
    simp only [lowestOf] at h
    intro x hx
    cases hr : lowestOf rest <;> rw [hr] at h <;>
      simp only [Option.some_inj] at h
    · rcases List.mem_cons.mp hx with rfl | hx'
      · exact le_of_eq h.symm
      · exact absurd (lowestOf_eq_none.mp hr ▸ hx') (List.not_mem_nil x)
    · rcases List.mem_cons.mp hx with rfl | hx'
      · exact h ▸ min_le_left _ _
      · exact le_trans (h ▸ min_le_right _ _) (lowestOf_le hr x hx')

theorem lowestOf_filter_lt_one :
    ∀ {l : List ℚ}, l.filter (fun q => decide (q < 1)) ≠ [] →
      lowestOf l = lowestOf (l.filter (fun q => decide (q < 1)))
  | [], h => by simp at h
  | q :: rest, h => by
    by_cases hq : q < 1
    · have hfil : (q :: rest).filter (fun x => decide (x < 1))
          = q :: rest.filter (fun x => decide (x < 1)) := by
        simp [List.filter_cons, hq]
      rw [hfil]
      by_cases hrest : rest.filter (fun x => decide (x < 1)) = []
      · rw [hrest]
        have hge : ∀ x ∈ rest, ¬(x < 1) := by
          intro x hx hlt
          have := List.filter_eq_nil_iff.mp hrest x hx
          simp [hlt] at this
        simp only [lowestOf]
        cases hr : lowestOf rest with
        | none => rfl
        | some m =>
          have hm : ¬(m < 1) := hge m (lowestOf_mem hr)
          have hmin : min q m = q :=
            min_eq_left (le_of_lt (lt_of_lt_of_le hq (not_lt.mp hm)))
          simp [hmin]
      · have ih := lowestOf_filter_lt_one hrest
        simp only [lowestOf]
        rw [← ih]
    · have hfil : (q :: rest).filter (fun x => decide (x < 1))
          = rest.filter (fun x => decide (x < 1)) := by
        simp [List.filter_cons, hq]
      rw [hfil] at h ⊢
      have ih := lowestOf_filter_lt_one h
      simp only [lowestOf]
      cases hr : lowestOf rest with
      | none => exact absurd (lowestOf_eq_none.mp hr ▸ h) (by simp [List.filter_nil])
      | some m =>
        rw [hr] at ih
        rw [← ih]
        obtain ⟨x, hxmem, hxlt⟩ : ∃ x ∈ rest, x < 1 := by
          rcases List.exists_mem_of_ne_nil _ h with ⟨x, hx⟩
          have := List.mem_filter.mp hx
          exact ⟨x, this.1, by simpa using this.2⟩
        have hmx : m ≤ x := lowestOf_le hr x hxmem
        have hmin : min q m = m :=
          min_eq_right
            (le_of_lt (lt_of_le_of_lt hmx (lt_of_lt_of_le hxlt (not_lt.mp hq))))
        simp [hmin]

theorem map_snd_filter_lt (l : List (String × ℚ)) :
    (l.filter fun kv => decide (kv.2 < 1)).map Prod.snd
      = (l.map Prod.snd).filter fun q => decide (q < 1) := by
  induction l with
  | nil => rfl
  | cons hd tl ih =>
    by_cases h : hd.2 < 1 <;> simp [List.filter_cons, h, ih]

/-!  Claim C9 — `IndexedMap::get` on indexes built by the `From`
constructor. -/

theorem alookup_pushRecipe (m : List (String × List Recipe)) (k k' : String)
    (r : Recipe) :
    alookup (pushRecipe m k r) k' =
      if k = k' then some (((alookup m k).getD []) ++ [r])
      else alookup m k' := by
  induction m with
  | nil =>
    by_cases h : k = k'
    · subst h; simp [pushRecipe, alookup]
    · simp [pushRecipe, alookup, h]
  | cons hd tl ih =>
    obtain ⟨a, rs⟩ := hd
    by_cases hak : a = k
    · subst hak
      simp only [pushRecipe, if_pos rfl]
      by_cases hk' : a = k'
      · subst hk'; simp [alookup]
      · simp [alookup, hk']
    · simp only [pushRecipe, if_neg hak]
      by_cases hk' : a = k'
      · subst hk'
        have hkk' : ¬ k = a := fun h => hak h.symm
        simp [alookup, hkk']
      · simp only [alookup, if_neg hk', if_neg hak, ih]

theorem foldPush_nonempty (pairs : List (String × Recipe)) :
    ∀ (acc : List (String × List Recipe)),
      (∀ k rs, alookup acc k = some rs → rs ≠ []) →
      ∀ k rs,
        alookup (pairs.foldl (fun a kv => pushRecipe a kv.1 kv.2) acc) k
          = some rs → rs ≠ [] := by
  induction pairs with
  | nil => intro acc hacc k rs h; exact hacc k rs h
  | cons hd tl ih =>
    intro acc hacc k rs h
    refine ih (pushRecipe acc hd.1 hd.2) ?_ k rs h
    intro k' rs' h'
    rw [alookup_pushRecipe] at h'
    by_cases hk : hd.1 = k'
    · rw [if_pos hk] at h'
      obtain rfl := Option.some_injective _ h'
      simp
    · rw [if_neg hk] at h'
      exact hacc k' rs' h'

theorem foldPush_none_iff (pairs : List (String × Recipe)) :
    ∀ (acc : List (String × List Recipe)) (k : String),
      alookup (pairs.foldl (fun a kv => pushRecipe a kv.1 kv.2) acc) k = none ↔
        (alookup acc k = none ∧ k ∉ pairs.map Prod.fst) := by
  induction pairs with
  | nil => intro acc k; simp
  | cons hd tl ih =>
    intro acc k
    rw [List.foldl_cons, ih]
    constructor
    · rintro ⟨hpush, htl⟩
      rw [alookup_pushRecipe] at hpush
      by_cases hk : hd.1 = k
      · rw [if_pos hk] at hpush; cases hpush
      · rw [if_neg hk] at hpush
        refine ⟨hpush, ?_⟩
        intro hmem
        rw [List.map_cons, List.mem_cons] at hmem
        rcases hmem with h1 | h1
        · exact hk h1.symm
        · exact htl h1
    · rintro ⟨hacc, hmem⟩
      have hk : ¬ hd.1 = k := by
        intro hk; exact hmem (by simp [hk.symm])
      have htl : k ∉ tl.map Prod.fst := by
        intro hm; exact hmem (by simp [hm])
      rw [alookup_pushRecipe, if_neg hk]
      exact ⟨hacc, htl⟩

/-- C9: for every recipe index built by the `From`-iterator constructor
(with any active-index overlay), `IndexedMap::get` is total and never
panics: it returns `none` exactly when no recipe was inserted under the key,
and otherwise returns the element of the key's recipe list at the active
index clamped into range, so an out-of-range active index yields the last
entry of the list. -/
theorem indexed_map_get_total (pairs : List (String × Recipe))
    (idx : List (String × ℕ)) (key : String) :
    (IndexedMap.get ⟨(IndexedMap.fromPairs pairs).map, idx⟩ key = none ↔
      key ∉ pairs.map Prod.fst) ∧
    (key ∈ pairs.map Prod.fst →
      ∃ rs, alookup (IndexedMap.fromPairs pairs).map key = some rs ∧ rs ≠ [] ∧
        ∃ r, IndexedMap.get ⟨(IndexedMap.fromPairs pairs).map, idx⟩ key = some r ∧
          rs.get? (Nat.min (alookupD idx key 0) (rs.length - 1)) = some r ∧
          (rs.length ≤ alookupD idx key 0 → rs.getLast? = some r)) := by
  have hnonempty : ∀ k rs,
      alookup (IndexedMap.fromPairs pairs).map k = some rs → rs ≠ [] := by
    intro k rs h
    exact foldPush_nonempty pairs [] (by intro k' rs' h'; cases h') k rs h
  have hnone : alookup (IndexedMap.fromPairs pairs).map key = none ↔
      key ∉ pairs.map Prod.fst := by
    rw [IndexedMap.fromPairs, foldPush_none_iff]
    simp [alookup]
  have hget : ∀ rs, alookup (IndexedMap.fromPairs pairs).map key = some rs →
      ∃ hlt : Nat.min (alookupD idx key 0) (rs.length - 1) < rs.length,
        IndexedMap.get ⟨(IndexedMap.fromPairs pairs).map, idx⟩ key
          = some (rs.get ⟨Nat.min (alookupD idx key 0) (rs.length - 1), hlt⟩) := by
    intro rs hl
    have hne := hnonempty key rs hl
    have hlen : 0 < rs.length := List.length_pos.mpr hne
    have hlt : Nat.min (alookupD idx key 0) (rs.length - 1) < rs.length :=
      Nat.lt_of_le_of_lt (Nat.min_le_right _ _) (Nat.sub_lt hlen Nat.one_pos)
    refine ⟨hlt, ?_⟩
    simp only [IndexedMap.get]
    rw [hl, Option.some_bind, List.get?_eq_get hlt]
  constructor
  · constructor
    · intro h
      intro hmem
      cases hl : alookup (IndexedMap.fromPairs pairs).map key with
      | none => exact (hnone.mp hl) hmem
      | some rs =>
        obtain ⟨hlt, hg⟩ := hget rs hl
        rw [hg] at h
        cases h
    · intro hmem
      simp only [IndexedMap.get]
      rw [hnone.mpr hmem, Option.none_bind]
  · intro hmem
    cases hl : alookup (IndexedMap.fromPairs pairs).map key with
    | none => exact absurd hmem (hnone.mp hl)
    | some rs =>
      have hne := hnonempty key rs hl
      have hlen : 0 < rs.length := List.length_pos.mpr hne
      obtain ⟨hlt, hg⟩ := hget rs hl
      refine ⟨rs, rfl, hne, rs.get ⟨_, hlt⟩, hg, List.get?_eq_get hlt, ?_⟩
      intro hout
      have hminr : Nat.min (alookupD idx key 0) (rs.length - 1)
          = rs.length - 1 :=
        Nat.min_eq_right (Nat.le_trans (Nat.sub_le _ _) hout)
      rw [List.getLast?_eq_getLast_of_ne_nil hne]
      congr 1
      rw [List.getLast_eq_getElem, List.get_eq_getElem]
      simp only [hminr]

/-- Witness for C9 at a concrete index: two recipes under key `a`, active
index `5` out of range, lookup returns the last entry. -/
theorem indexed_map_get_total_witness :
    ("a" ∈ ([("a", plateRecipe), ("a", recipeD)].map Prod.fst)) ∧
    ∃ rs, alookup (IndexedMap.fromPairs [("a", plateRecipe), ("a", recipeD)]).map "a"
        = some rs ∧ rs ≠ [] ∧
      ∃ r, IndexedMap.get ⟨(IndexedMap.fromPairs
          [("a", plateRecipe), ("a", recipeD)]).map, [("a", 5)]⟩ "a" = some r ∧
        rs.get? (Nat.min (alookupD [("a", 5)] "a" 0) (rs.length - 1)) = some r ∧
        (rs.length ≤ alookupD [("a", 5)] "a" 0 → rs.getLast? = some r) :=
  ⟨by decide,
    (indexed_map_get_total [("a", plateRecipe), ("a", recipeD)] [("a", 5)] "a").2
      (by decide)⟩

/-!  Claim C7 — `nearest_perfect_split` and `None`. -/

/-- Counterexample to C7: at input `0` the function does not return `None`;
the loop still runs its first iteration (`x = 0`, `y = 0`) and records the
candidate `2^0 * 3^0 = 1`. -/
theorem nearest_perfect_split_zero : nearest_perfect_split 0 = some (0, 0, 1) := by
  decide

theorem splitUpd_closest (n x : ℕ) (st : SplitState) :
    (splitUpd n x st).closest = st.closest := by
  rw [splitUpd]
  split <;> (try split) <;> rfl

theorem splitUpd_result (n x : ℕ) (st : SplitState) :
    (splitUpd n x st).result = st.result := by
  rw [splitUpd]
  split <;> (try split) <;> rfl

theorem splitUpd_xpow2 (n x : ℕ) (st : SplitState) :
    (splitUpd n x st).xpow2 = st.xpow2 := by
  rw [splitUpd]
  split <;> (try split) <;> rfl

theorem splitLoop_result_some (n : ℕ) :
    ∀ (xs : List ℕ) (st : SplitState), st.result.isSome →
      (splitLoop n xs st).result.isSome := by
  intro xs
  induction xs with
  | nil => intro st h; exact h
  | cons x rest ih =>
    intro st h
    have h1 : (splitUpd n x st).result.isSome := by
      rw [splitUpd_result]; exact h
    simp only [splitLoop]
    split
    · split
      · simp
      · exact ih _ (by simp)
    · exact ih _ (by simpa using h1)

theorem splitLoop_cons_some (n x : ℕ) (xs : List ℕ) (st : SplitState)
    (h : st.closest = none) : (splitLoop n (x :: xs) st).result.isSome := by
  have h1 : (splitUpd n x st).closest = none := by
    rw [splitUpd_closest]; exact h
  simp only [splitLoop, h1, if_true]
  split
  · simp
  · exact splitLoop_result_some n xs _ (by simp)

/-- C7 amended: `nearest_perfect_split` never returns `None`: the iteration
range `0..=ceil(log2 n)` is never empty and its first iteration always sets
the result (in particular at `n = 0` it returns `some (0, 0, 1)`). -/
theorem nearest_perfect_split_never_none (n : ℕ) :
    ∃ t, nearest_perfect_split n = some t := by
  have hrange : List.range (ceilLog2 n + 1)
      = 0 :: (List.range (ceilLog2 n)).map (· + 1) :=
    List.range_succ_eq_map (ceilLog2 n)
  rw [nearest_perfect_split, hrange]
  have := splitLoop_cons_some n 0 ((List.range (ceilLog2 n)).map (· + 1))
    { result := none, closest := none, xpow2 := 1, lastY := leastPow3 n 0,
      ypow3 := 3 ^ leastPow3 n 0 } rfl
  exact Option.isSome_iff_exists.mp this

/-!  Claim C2 — the return condition of the byproduct fixed-point loop. -/

/-- C2: `resolve_dependency_trees` returns its `(forest, totals)` pair
exactly when `reuse_byproducts` is off or the tallied byproducts map equals
(HashMap equality) the current `initial_byproducts`; otherwise it replaces
`initial_byproducts` with `totals.byproducts` and performs another full
resolution iteration (with the budgets decremented by this iteration). -/
theorem byproduct_loop_return_condition (R : IndexedMap)
    (resupply reuse : Bool) (resolveFuel adjFuel tallyFuel innerFuel fuel : ℕ)
    (products : List (String × Option ℚ)) (ingredients : QOMap)
    (initialByp : QMap) (trees : List Product)
    (totals : DependencyResolutionTotals) (ing' : QOMap)
    (h : outerIter R resupply resolveFuel adjFuel tallyFuel innerFuel products
      ingredients initialByp = some (trees, totals, ing')) :
    rdtLoop R resupply reuse resolveFuel adjFuel tallyFuel innerFuel products
        (fuel + 1) ingredients initialByp =
      if reuse && !mapBEq totals.byproducts initialByp then
        rdtLoop R resupply reuse resolveFuel adjFuel tallyFuel innerFuel
          products fuel ing' totals.byproducts
      else some (trees, totals) := by
  simp only [rdtLoop]
  rw [h]
  rfl

/-- Witness for C2 at a concrete input: one rated request `x:1` against an
empty recipe index with `reuse_byproducts` off; the loop returns after one
iteration. -/
theorem byproduct_loop_return_condition_witness :
    outerIter Rempty false 10 10 10 10 [("x", some 1)] [] []
        = some (exTrees, exTotals, []) ∧
    rdtLoop Rempty false false 10 10 10 10 [("x", some 1)] 1 [] []
        = some (exTrees, exTotals) := by
  have h : outerIter Rempty false 10 10 10 10 [("x", some 1)] [] []
      = some (exTrees, exTotals, []) := by rfl
  refine ⟨h, ?_⟩
  have h2 := byproduct_loop_return_condition Rempty false false 10 10 10 10 0
    [("x", some 1)] [] [] exTrees exTotals [] h
  simpa using h2

/-!  Claims C1, C8, C10 — the recursive expander. -/

theorem resolveSources_mem {rec : Product → QMap → Option Product} {B : QMap}
    {sources s1 : List (ℚ × Source)}
    (h : resolveSources rec B sources = some s1) :
    ∀ e ∈ s1, e.2 = .supply ∨ e.2 = .byproduct ∨
      ∃ m mq byps ings, e.2 = .recipe m mq byps ings ∧
        ∀ c ∈ ings, ∃ x B', rec x B' = some c := by
  intro e he
  obtain ⟨x, hx, hfx⟩ := mapMO_mem h e he
  obtain ⟨q, s⟩ := x
  cases s with
  | recipe m mq byps ings =>
    rw [show (match ((q, Source.recipe m mq byps ings) : ℚ × Source) with
        | (q, .recipe m mq byps ings) =>
          (mapMO (fun ing => rec ing (shadowMap B (collectMap byps))) ings).map
            fun ings' => (q, Source.recipe m mq byps ings')
        | (q, s) => some (q, s))
        = (mapMO (fun ing => rec ing (shadowMap B (collectMap byps))) ings).map
            fun ings' => (q, Source.recipe m mq byps ings') from rfl] at hfx
    rw [Option.map_eq_some'] at hfx
    obtain ⟨ings', hi, hy⟩ := hfx
    subst hy
    refine Or.inr (Or.inr ⟨m, mq, byps, ings', rfl, ?_⟩)
    intro c hc
    obtain ⟨x, _, hfx⟩ := mapMO_mem hi c hc
    exact ⟨x, shadowMap B (collectMap byps), hfx⟩
  | supply =>
    obtain rfl := Option.some_injective _ hfx
    exact Or.inl rfl
  | byproduct =>
    obtain rfl := Option.some_injective _ hfx
    exact Or.inr (Or.inl rfl)

theorem satisfyStep_sources {R : IndexedMap} {avail : List String}
    {rec : Product → QMap → Option Product} {name : String} {u : ℚ}
    {B : QMap} {s1 s2 : List (ℚ × Source)}
    (h : satisfyStep R avail rec name u B s1 = some s2) :
    s2 = s1 ∨ ∃ e, s2 = s1 ++ [e] ∧ (e.2 = .supply ∨ e.2 = .byproduct ∨
      ∃ m mq byps ings, e.2 = .recipe m mq byps ings ∧
        ∀ c ∈ ings, ∃ x B', rec x B' = some c) := by
  rw [satisfyStep] at h
  split at h
  · split at h
    · exact Or.inr ⟨_, (Option.some_injective _ h).symm, Or.inl rfl⟩
    · split at h
      · exact Or.inr ⟨_, (Option.some_injective _ h).symm, Or.inr (Or.inl rfl)⟩
      · split at h
        · exact Or.inr ⟨_, (Option.some_injective _ h).symm, Or.inl rfl⟩
        · split at h
          · cases h
          · simp only [Option.map_eq_some'] at h
            obtain ⟨ings, hi, hs2⟩ := h
            subst hs2
            refine Or.inr ⟨_, rfl, Or.inr (Or.inr ⟨_, _, _, ings, rfl, ?_⟩)⟩
            intro c hc
            obtain ⟨x, _, hfx⟩ := mapMO_mem hi c hc
            exact ⟨_, _, hfx⟩
  · exact Or.inl (Option.some_injective _ h).symm

/-- C8: whenever `resolve_product_dependencies` returns, every node of the
returned tree — the argument node and all existing and newly created
ingredient children, recursively — has `unsupplied = 0`. -/
theorem resolve_clears_unsupplied (R : IndexedMap) (avail : List String) :
    ∀ (fuel : ℕ) (p : Product) (B : QMap) (p' : Product),
      resolve_product_dependencies R avail fuel p B = some p' → AllResolved p'
  | 0, p, B, p', h => by
    rw [resolve_product_dependencies] at h; cases h
  | fuel + 1, p, B, p', h => by
    rw [resolve_product_dependencies] at h
    cases hs1 : resolveSources
        (fun c B' => resolve_product_dependencies R avail fuel c B') B
        p.sources with
    | none => rw [hs1] at h; cases h
    | some s1 =>
      rw [hs1, Option.some_bind, Option.map_eq_some'] at h
      obtain ⟨s2, hs2, hp'⟩ := h
      subst hp'
      refine AllResolved.mk rfl ?_
      have hres : ∀ qs : ℚ × Source,
          (qs.2 = Source.supply ∨ qs.2 = Source.byproduct ∨
            ∃ m mq byps ings, qs.2 = Source.recipe m mq byps ings ∧
              ∀ c ∈ ings, ∃ x B',
                resolve_product_dependencies R avail fuel x B' = some c) →
          SourceResolved qs.2 := by
        rintro qs (hh | hh | ⟨m, mq, byps, ings, hh, hc⟩) <;> rw [hh]
        · exact SourceResolved.supply
        · exact SourceResolved.byproduct
        · refine SourceResolved.recipe ?_
          intro c hcm
          obtain ⟨x, B', hx⟩ := hc c hcm
          exact resolve_clears_unsupplied R avail fuel x B' c hx
      intro qs hqs
      rcases satisfyStep_sources hs2 with rfl | ⟨e, rfl, he⟩
      · exact hres qs (resolveSources_mem hs1 qs hqs)
      · rcases List.mem_append.mp hqs with hq1 | hq2
        · exact hres qs (resolveSources_mem hs1 qs hq1)
        · obtain rfl : qs = e := by simpa using hq2
          exact hres qs he

/-- Witness for C8 at a concrete input: resolving `plate:30` against the
plate recipe yields a fully resolved tree. -/
theorem resolve_clears_unsupplied_witness :
    resolve_product_dependencies Rplate ["Iron Ore"] 10
        (Product.mk "plate" 30 []) []
      = some (Product.mk "plate" 0
          [(30, Source.recipe "Smelter" 1 []
            [Product.mk "Iron Ore" 0 [(30, Source.supply)]])]) ∧
    AllResolved (Product.mk "plate" 0
      [(30, Source.recipe "Smelter" 1 []
        [Product.mk "Iron Ore" 0 [(30, Source.supply)]])]) := by
  have h : resolve_product_dependencies Rplate ["Iron Ore"] 10
      (Product.mk "plate" 30 []) []
      = some (Product.mk "plate" 0
          [(30, Source.recipe "Smelter" 1 []
            [Product.mk "Iron Ore" 0 [(30, Source.supply)]])]) := by rfl
  exact ⟨h, resolve_clears_unsupplied Rplate ["Iron Ore"] 10
    (Product.mk "plate" 30 []) [] _ h⟩

theorem resolveSources_forall₂ {rec : Product → QMap → Option Product}
    {B : QMap} {sources s1 : List (ℚ × Source)}
    (h : resolveSources rec B sources = some s1) :
    List.Forall₂ (fun x y : ℚ × Source =>
      (y = x ∧ (x.2 = Source.supply ∨ x.2 = Source.byproduct)) ∨
      ∃ q m mq byps ings ings', x = (q, Source.recipe m mq byps ings) ∧
        y = (q, Source.recipe m mq byps ings') ∧
        List.Forall₂ (fun c c' =>
          rec c (shadowMap B (collectMap byps)) = some c') ings ings')
      sources s1 := by
  refine (mapMO_forall₂ h).imp ?_
  rintro ⟨q, s⟩ y hxy
  cases s with
  | recipe m mq byps ings =>
    rw [show (match ((q, Source.recipe m mq byps ings) : ℚ × Source) with
        | (q, .recipe m mq byps ings) =>
          (mapMO (fun ing => rec ing (shadowMap B (collectMap byps))) ings).map
            fun ings' => (q, Source.recipe m mq byps ings')
        | (q, s) => some (q, s))
        = (mapMO (fun ing => rec ing (shadowMap B (collectMap byps))) ings).map
            fun ings' => (q, Source.recipe m mq byps ings') from rfl] at hxy
    rw [Option.map_eq_some'] at hxy
    obtain ⟨ings', hi, hy⟩ := hxy
    subst hy
    exact Or.inr ⟨q, m, mq, byps, ings, ings', rfl, rfl, mapMO_forall₂ hi⟩
  | supply =>
    obtain rfl := Option.some_injective _ hxy
    exact Or.inl ⟨rfl, Or.inl rfl⟩
  | byproduct =>
    obtain rfl := Option.some_injective _ hxy
    exact Or.inl ⟨rfl, Or.inr rfl⟩

/-- C10: `resolve_product_dependencies` only appends source entries: for
every node of the tree passed to it, every pre-existing `(quantity, Source)`
entry is still present after the call, at the same position, with the same
quantity and tag (indeed with the same machine, machine quantity and
byproducts for Recipe entries), and new entries appear only after the
pre-existing ones. -/
theorem resolve_preserves_sources (R : IndexedMap) (avail : List String) :
    ∀ (fuel : ℕ) (p : Product) (B : QMap) (p' : Product),
      resolve_product_dependencies R avail fuel p B = some p' → NodePres p p'
  | 0, p, B, p', h => by
    rw [resolve_product_dependencies] at h; cases h
  | fuel + 1, p, B, p', h => by
    obtain ⟨nm, u, src⟩ := p
    rw [resolve_product_dependencies] at h
    cases hs1 : resolveSources
        (fun c B' => resolve_product_dependencies R avail fuel c B') B
        (Product.mk nm u src).sources with
    | none => rw [hs1] at h; cases h
    | some s1 =>
      rw [hs1, Option.some_bind, Option.map_eq_some'] at h
      obtain ⟨s2, hs2, hp'⟩ := h
      subst hp'
      have hf2 : List.Forall₂ EntryPres src s1 := by
        refine (resolveSources_forall₂ hs1).imp ?_
        rintro ⟨qx, sx⟩ y (⟨rfl, htag | htag⟩ |
          ⟨q, m, mq, byps, ings, ings', heq, rfl, hrec⟩)
        · obtain rfl : sx = Source.supply := htag
          exact EntryPres.supply
        · obtain rfl : sx = Source.byproduct := htag
          exact EntryPres.byproduct
        · obtain ⟨rfl, rfl⟩ : qx = q ∧ sx = Source.recipe m mq byps ings := by
            have h1 := congrArg Prod.fst heq
            have h2 := congrArg Prod.snd heq
            exact ⟨h1, h2⟩
          refine EntryPres.recipe ?_
          refine hrec.imp ?_
          intro c c' hcc
          exact resolve_preserves_sources R avail fuel c _ c' hcc
      rcases satisfyStep_sources hs2 with heq | ⟨e, heq, _⟩
      · rw [heq]
        have h0 : NodePres (Product.mk nm u src) (Product.mk nm 0 (s1 ++ [])) :=
          NodePres.mk hf2
        simpa using h0
      · rw [heq]
        exact NodePres.mk hf2

/-- Witness for C10 at a concrete input: a node for `plate` that already
holds a Supply entry for 10 keeps it at position 0 and gains the Recipe
entry for the remaining 20 after it. -/
theorem resolve_preserves_sources_witness :
    resolve_product_dependencies Rplate [] 10
        (Product.mk "plate" 20 [(10, Source.supply)]) []
      = some (Product.mk "plate" 0 [(10, Source.supply),
          (20, Source.recipe "Smelter" (2/3) []
            [Product.mk "Iron Ore" 0 [(20, Source.supply)]])]) ∧
    NodePres (Product.mk "plate" 20 [(10, Source.supply)])
      (Product.mk "plate" 0 [(10, Source.supply),
        (20, Source.recipe "Smelter" (2/3) []
          [Product.mk "Iron Ore" 0 [(20, Source.supply)]])]) := by
  have h : resolve_product_dependencies Rplate [] 10
      (Product.mk "plate" 20 [(10, Source.supply)]) []
      = some (Product.mk "plate" 0 [(10, Source.supply),
          (20, Source.recipe "Smelter" (2/3) []
            [Product.mk "Iron Ore" 0 [(20, Source.supply)]])]) := by rfl
  exact ⟨h, resolve_preserves_sources Rplate [] 10
    (Product.mk "plate" 20 [(10, Source.supply)]) [] _ h⟩

/-- C1: on a node with strictly positive unsupplied demand, exactly one
satisfaction rule fires, in strict priority order: (1) basic or available
ingredient — a `(unsupplied, Supply)` entry is pushed; (2) else a strictly
positive byproduct entry — a single `(unsupplied, Byproduct)` entry for the
full unsupplied amount (a zero entry falls through); (3) else a recipe — a
Recipe source with `machine_quantity = unsupplied / primary_output_rate`,
byproducts and child demands scaled by that ratio and children created in
the recipe's declared order; (4) else a `(unsupplied, Supply)` entry. -/
theorem resolve_priority_rules (R : IndexedMap) (avail : List String)
    (fuel : ℕ) (p p' : Product) (B : QMap) (s1 : List (ℚ × Source))
    (hu : 0 < p.unsupplied)
    (h : resolve_product_dependencies R avail (fuel + 1) p B = some p')
    (h1 : resolveSources
        (fun c B' => resolve_product_dependencies R avail fuel c B') B
        p.sources = some s1) :
    ((BASIC_INGREDIENTS.contains p.name || avail.contains p.name) = true →
      p'.sources = s1 ++ [(p.unsupplied, Source.supply)]) ∧
    ((BASIC_INGREDIENTS.contains p.name || avail.contains p.name) = false →
      bypAvailable B p.name = true →
      p'.sources = s1 ++ [(p.unsupplied, Source.byproduct)]) ∧
    ((BASIC_INGREDIENTS.contains p.name || avail.contains p.name) = false →
      bypAvailable B p.name = false →
      ∀ recipe, R.get p.name = some recipe →
      ∃ pr, recipe.products.find? (fun rp => rp.1 == p.name) = some pr ∧
      ∃ ings,
        mapMO (fun rp => resolve_product_dependencies R avail fuel
            (Product.mk rp.1 (rp.2 * (p.unsupplied / pr.2)) [])
            (shadowMap B (collectMap (recipe.products.filterMap fun rp =>
              if rp.1 ≠ p.name then some (rp.1, rp.2 * (p.unsupplied / pr.2))
              else none))))
          recipe.ingredients = some ings ∧
        p'.sources = s1 ++ [(p.unsupplied,
          Source.recipe recipe.machine (p.unsupplied / pr.2)
            (recipe.products.filterMap fun rp =>
              if rp.1 ≠ p.name then some (rp.1, rp.2 * (p.unsupplied / pr.2))
              else none) ings)]) ∧
    ((BASIC_INGREDIENTS.contains p.name || avail.contains p.name) = false →
      bypAvailable B p.name = false →
      R.get p.name = none →
      p'.sources = s1 ++ [(p.unsupplied, Source.supply)]) := by
  rw [resolve_product_dependencies, h1, Option.some_bind,
    Option.map_eq_some'] at h
  obtain ⟨s2, hs2, hp'⟩ := h
  subst hp'
  rw [satisfyStep, if_pos hu] at hs2
  refine ⟨?_, ?_, ?_, ?_⟩
  · intro hb
    rw [if_pos hb] at hs2
    obtain rfl := Option.some_injective _ hs2
    simp [Product.sources]
  · intro hb hbyp
    rw [if_neg (by rw [hb]; exact Bool.false_ne_true), if_pos hbyp] at hs2
    obtain rfl := Option.some_injective _ hs2
    simp [Product.sources]
  · intro hb hbyp recipe hget
    rw [if_neg (by rw [hb]; exact Bool.false_ne_true),
      if_neg (by rw [hbyp]; exact Bool.false_ne_true)] at hs2
    simp only [hget] at hs2
    rw [if_pos hu] at hs2
    cases hfind : recipe.products.find? (fun rp => rp.1 == p.name) with
    | none => rw [hfind] at hs2; cases hs2
    | some pr =>
      rw [hfind] at hs2
      simp only [Option.map_eq_some'] at hs2
      obtain ⟨ings, hi, heq⟩ := hs2
      subst heq
      exact ⟨pr, rfl, ings, hi, by simp [Product.sources]⟩
  · intro hb hbyp hget
    rw [if_neg (by rw [hb]; exact Bool.false_ne_true),
      if_neg (by rw [hbyp]; exact Bool.false_ne_true)] at hs2
    simp only [hget] at hs2
    obtain rfl := Option.some_injective _ hs2
    simp [Product.sources]

/-- Witness for C1 at a concrete input: an unknown product with demand 5 and
no recipe falls to rule 1 when listed in the available ingredients. -/
theorem resolve_priority_rules_witness :
    0 < (Product.mk "x" 5 []).unsupplied ∧
    ((BASIC_INGREDIENTS.contains (Product.mk "x" 5 []).name
        || ["x"].contains (Product.mk "x" 5 []).name) = true →
      (Product.mk "x" 0 [(5, Source.supply)]).sources
        = [] ++ [((Product.mk "x" 5 []).unsupplied, Source.supply)]) :=
  ⟨by decide,
    (resolve_priority_rules Rempty ["x"] 0 (Product.mk "x" 5 [])
      (Product.mk "x" 0 [(5, Source.supply)]) [] [] (by decide) (by rfl)
      (by rfl)).1⟩

/-!  Claim C5 — the byproduct fixed-point loop has no cap and can run
forever. -/

theorem osc_step_even (fuel : ℕ) :
    rdtLoop Rosc false true 10 10 10 10 [("D", some 1)] (fuel + 1) [] []
      = rdtLoop Rosc false true 10 10 10 10 [("D", some 1)] fuel []
          [("D", 1)] := by
  rfl

theorem osc_step_odd (fuel : ℕ) :
    rdtLoop Rosc false true 10 10 10 10 [("D", some 1)] (fuel + 1) []
        [("D", 1)]
      = rdtLoop Rosc false true 10 10 10 10 [("D", some 1)] fuel [] [] := by
  rfl

theorem osc_loop_none : ∀ fuel : ℕ,
    rdtLoop Rosc false true 10 10 10 10 [("D", some 1)] fuel [] [] = none ∧
    rdtLoop Rosc false true 10 10 10 10 [("D", some 1)] fuel [] [("D", 1)]
      = none
  | 0 => ⟨rfl, rfl⟩
  | fuel + 1 =>
    ⟨(osc_step_even fuel).trans (osc_loop_none fuel).2,
     (osc_step_odd fuel).trans (osc_loop_none fuel).1⟩

/-- Counterexample to C5: on the request `D:1` over the recipe set
`{recipeD, recipeE}` with `reuse_byproducts` on, the byproducts map
oscillates with period 2 (`{} ↦ {D: 1} ↦ {} ↦ …`), so the loop never
returns for any amount of fuel: there is no iteration cap and no ε
tolerance in the code. -/
theorem byproduct_loop_nontermination : ¬ oscLoopTerminates := by
  rintro ⟨fuel, r, h⟩
  rw [(osc_loop_none fuel).1] at h
  cases h

/-- C5 amended: the byproduct fixed-point loop of
`resolve_dependency_trees` has no iteration cap and no ε tolerance:
whenever it returns, either `reuse_byproducts` is off or the returned
totals' byproducts map is exactly equal (HashMap equality) to the
`initial_byproducts` map of the final iteration — and on some recipe sets
(see the counterexample) it never returns. -/
theorem byproduct_loop_exit_is_exact_fixed_point (R : IndexedMap)
    (resupply reuse : Bool) (resolveFuel adjFuel tallyFuel innerFuel : ℕ)
    (products : List (String × Option ℚ)) :
    ∀ (fuel : ℕ) (ingredients : QOMap) (initialByp : QMap)
      (trees : List Product) (totals : DependencyResolutionTotals),
      rdtLoop R resupply reuse resolveFuel adjFuel tallyFuel innerFuel
        products fuel ingredients initialByp = some (trees, totals) →
      ∃ ing B ing',
        outerIter R resupply resolveFuel adjFuel tallyFuel innerFuel
          products ing B = some (trees, totals, ing') ∧
        (reuse = true → mapBEq totals.byproducts B = true)
  | 0, ing, B, trees, totals, h => by
    rw [rdtLoop] at h; cases h
  | fuel + 1, ing, B, trees, totals, h => by
    rw [rdtLoop] at h
    cases ho : outerIter R resupply resolveFuel adjFuel tallyFuel innerFuel
        products ing B with
    | none => rw [ho, Option.none_bind] at h; cases h
    | some r =>
      rw [ho, Option.some_bind] at h
      by_cases hc : (reuse && !mapBEq r.2.1.byproducts B) = true
      · rw [if_pos hc] at h
        exact byproduct_loop_exit_is_exact_fixed_point R resupply reuse
          resolveFuel adjFuel tallyFuel innerFuel products fuel
          r.2.2 r.2.1.byproducts trees totals h
      · rw [if_neg hc] at h
        obtain heq := Option.some_injective _ h
        obtain ⟨h1, h2⟩ : r.1 = trees ∧ r.2.1 = totals :=
          ⟨congrArg Prod.fst heq, congrArg (fun x => x.2) heq⟩
        subst h1
        subst h2
        refine ⟨ing, B, r.2.2, ho, ?_⟩
        intro hr
        subst hr
        simp only [Bool.true_and] at hc
        simpa using hc

/-- Witness for the C5 amended theorem at a concrete input: the `x:1`
request against the empty index returns, and with `reuse_byproducts` off
the fixed-point condition is vacuous. -/
theorem byproduct_loop_exit_witness :
    ∃ ing B ing',
      outerIter Rempty false 10 10 10 10 [("x", some 1)] ing B
        = some (exTrees, exTotals, ing') ∧
      (false = true → mapBEq exTotals.byproducts B = true) :=
  byproduct_loop_exit_is_exact_fixed_point Rempty false false 10 10 10 10
    [("x", some 1)] 1 [] [] exTrees exTotals (by rfl)

/-!  Claim C4 — unrated requests and the lowest supply proportion. -/

theorem adjust_scaled : ∀ (fuel : ℕ) (a : ℚ) (p p' : Product),
    Product.adjust_quantities fuel a p = some p' → ProductScaled a p p'
  | 0, a, p, p', h => by
    rw [Product.adjust_quantities] at h; cases h
  | fuel + 1, a, .mk n u sources, p', h => by
    rw [Product.adjust_quantities, Option.map_eq_some'] at h
    obtain ⟨s', hs', hp'⟩ := h
    subst hp'
    refine ProductScaled.mk ?_
    refine (mapMO_forall₂ hs').imp ?_
    rintro ⟨q, s⟩ y hxy
    cases s with
    | recipe m mq byps ings =>
      rw [show (match ((q, Source.recipe m mq byps ings) : ℚ × Source) with
          | (q, .recipe m mq byps ings) =>
            (mapMO (fun c => Product.adjust_quantities fuel a c) ings).map
              fun ings' => (q * a, Source.recipe m (mq * a)
                (byps.map fun b => (b.1, b.2 * a)) ings')
          | (q, s) => some (q * a, s))
          = (mapMO (fun c => Product.adjust_quantities fuel a c) ings).map
              fun ings' => (q * a, Source.recipe m (mq * a)
                (byps.map fun b => (b.1, b.2 * a)) ings') from rfl] at hxy
      rw [Option.map_eq_some'] at hxy
      obtain ⟨ings', hi, hy⟩ := hxy
      subst hy
      refine EntryScaled.recipe ?_
      refine (mapMO_forall₂ hi).imp ?_
      intro c c' hcc
      exact adjust_scaled fuel a c c' hcc
    | supply =>
      obtain rfl := Option.some_injective _ hxy
      exact EntryScaled.supply
    | byproduct =>
      obtain rfl := Option.some_injective _ hxy
      exact EntryScaled.byproduct

/-- Counterexample to C4: with the unrated request `plate` and 60/min of
Iron Ore budgeted, the resolved tree demands 30/min, the lowest supply
proportion is 2, and the final tree holds 60/min — strictly more than the
tree had immediately after resolution, so the demand was scaled up. -/
theorem unrated_scaleup_counterexample :
    ((mapMO (fun t => resolve_product_dependencies Rplate ["Iron Ore"] 10 t [])
        [Product.mk "plate" 30 []]).map
        (fun l => l.map fun p => p.sources.map Prod.fst) = some [[30]]) ∧
    ((resolve_dependency_trees Rplate [("plate", none)] [("Iron Ore", some 60)]
        false false 10 10 10 10 2).map
        (fun r => r.1.map fun p => p.sources.map Prod.fst) = some [[60]]) ∧
    ¬ ((60 : ℚ) ≤ 30) :=
  ⟨by rfl, by rfl, by decide⟩

/-- C4 amended: after an unrated request's trees are resolved against the
post-consumption budgets, they are multiplied by the single lowest summed
supply proportion (inputs and byproduct inputs added per name) whenever one
exists — whatever its value: every quantity of every tree is multiplied by
that factor, which scales the trees up when it exceeds 1 (it is not clamped
to 1). -/
theorem unrated_lowest_proportion_adjust (R : IndexedMap)
    (resolveFuel adjFuel tallyFuel : ℕ)
    (products : List (String × Option ℚ)) (ingredients : QOMap)
    (input_byproducts : QMap) (trees1 : List Product)
    (totals : DependencyResolutionTotals) (a : ℚ)
    (hne : (products.filterMap fun nq =>
        match nq.2 with
        | none => some (Product.mk nq.1 (defaultRate R nq.1) [])
        | some _ => none).isEmpty = false)
    (h1 : mapMO (fun t =>
        resolve_product_dependencies R (ingredients.map Prod.fst) resolveFuel t
          input_byproducts)
        (products.filterMap fun nq =>
          match nq.2 with
          | none => some (Product.mk nq.1 (defaultRate R nq.1) [])
          | some _ => none) = some trees1)
    (h2 : tallyTrees tallyFuel trees1 = some totals)
    (ha : lowestOf (((compute_supply_proportions totals.inputs ingredients ++
        compute_supply_proportions totals.byproduct_inputs
          (input_byproducts.map fun kv => (kv.1, some kv.2))).foldl
        (fun acc kv => addTo acc kv.1 kv.2) []).map Prod.snd) = some a) :
    unratedBlock R resolveFuel adjFuel tallyFuel products ingredients
        input_byproducts
      = mapMO (Product.adjust_quantities adjFuel a) trees1 ∧
    ∀ trees', mapMO (Product.adjust_quantities adjFuel a) trees1
        = some trees' →
      List.Forall₂ (ProductScaled a) trees1 trees' := by
  constructor
  · rw [unratedBlock]
    rw [if_neg (by rw [hne]; exact Bool.false_ne_true)]
    simp only [h1, Option.some_bind, h2, ha]
  · intro trees' h
    exact (mapMO_forall₂ h).imp fun p p' hp => adjust_scaled adjFuel a p p' hp

/-- Witness for the C4 amended theorem at the concrete scale-up input. -/
theorem unrated_lowest_proportion_adjust_witness :
    unratedBlock Rplate 10 10 10 [("plate", none)] [("Iron Ore", some 60)] []
      = mapMO (Product.adjust_quantities 10 2) [exPlateTree] ∧
    ∀ trees', mapMO (Product.adjust_quantities 10 2) [exPlateTree]
        = some trees' →
      List.Forall₂ (ProductScaled 2) [exPlateTree] trees' :=
  unrated_lowest_proportion_adjust Rplate 10 10 10 [("plate", none)]
    [("Iron Ore", some 60)] [] [exPlateTree] exPlateTotals 2
    (by rfl) (by rfl) (by rfl) (by rfl)

/-!  Claim C3 — the scale-down strategy. -/

theorem alookup_mem {A : Type} :
    ∀ {m : List (String × A)} {k : String} {v : A},
      alookup m k = some v → (k, v) ∈ m
  | [], _, _, h => by cases h
  | (a, w) :: tl, k, v, h => by
    by_cases hak : a = k
    · subst hak
      rw [show alookup ((a, w) :: tl) a = some w from by simp [alookup]] at h
      obtain rfl := Option.some_injective _ h
      exact List.mem_cons_self _ _
    · rw [show alookup ((a, w) :: tl) k = alookup tl k from by
        simp [alookup, hak]] at h
      exact List.mem_cons_of_mem _ (alookup_mem h)

theorem mapMO_rel {A B : Type} {R : A → A → Prop} {S : B → B → Prop}
    {f f' : A → Option B}
    (hstep : ∀ x x', R x x' → ∀ b, f x = some b →
      ∃ b', f' x' = some b' ∧ S b b') :
    ∀ {xs xs' : List A}, List.Forall₂ R xs xs' →
      ∀ {l : List B}, mapMO f xs = some l →
        ∃ l', mapMO f' xs' = some l' ∧ List.Forall₂ S l l' := by
  intro xs xs' hR
  induction hR with
  | nil =>
    intro l h
    rw [mapMO] at h
    obtain rfl := Option.some_injective _ h
    exact ⟨[], rfl, List.Forall₂.nil⟩
  | cons hxy htail ih =>
    intro l h
    obtain ⟨b, bs, hb, hbs, rfl⟩ := mapMO_cons_some h
    obtain ⟨b', hb', hS⟩ := hstep _ _ hxy b hb
    obtain ⟨bs', hbs', hSs⟩ := ih hbs
    refine ⟨b' :: bs', ?_, List.Forall₂.cons hS hSs⟩
    rw [mapMO, hb', Option.some_bind, hbs', Option.map_some']

theorem totalsAdd_inputs (t1 t2 : DependencyResolutionTotals) :
    (totalsAdd t1 t2).inputs = mapAdd t1.inputs t2.inputs := rfl

theorem foldl_totalsAdd_inputs (a : ℚ) :
    ∀ {l l' : List DependencyResolutionTotals},
      List.Forall₂ (fun t t' : DependencyResolutionTotals =>
        t'.inputs = scaleMap a t.inputs) l l' →
      ∀ (b b' : DependencyResolutionTotals),
        b'.inputs = scaleMap a b.inputs →
        (l'.foldl totalsAdd b').inputs
          = scaleMap a ((l.foldl totalsAdd b).inputs) := by
  intro l l' hrel
  induction hrel with
  | nil => intro b b' hb; simpa using hb
  | cons hxy htail ih =>
    intro b b' hb
    rw [List.foldl_cons, List.foldl_cons]
    exact ih _ _ (by rw [totalsAdd_inputs, totalsAdd_inputs, hb, hxy,
      scaleMap_mapAdd])

theorem tallyChildSource_scaled (a : ℚ)
    (tn tn' : Product → Option DependencyResolutionTotals)
    (child child' : Product) (hcc : ProductScaled a child child')
    (hrec : ∀ t, tn child = some t →
      ∃ t', tn' child' = some t' ∧ t'.inputs = scaleMap a t.inputs) :
    ∀ (cs cs' : ℚ × Source), EntryScaled a cs cs' →
      ∀ b, tallyChildSource tn child cs = some b →
        ∃ b', tallyChildSource tn' child' cs' = some b' ∧
          b'.inputs = scaleMap a b.inputs := by
  have hname : child'.name = child.name := by
    cases hcc; rfl
  intro cs cs' hcs b hb
  cases hcs with
  | supply =>
    simp only [tallyChildSource] at hb ⊢
    obtain rfl := Option.some_injective _ hb
    refine ⟨_, rfl, ?_⟩
    rw [hname]
    rfl
  | byproduct =>
    simp only [tallyChildSource] at hb ⊢
    obtain rfl := Option.some_injective _ hb
    exact ⟨_, rfl, rfl⟩
  | recipe hings =>
    simp only [tallyChildSource] at hb ⊢
    rw [Option.map_eq_some'] at hb
    obtain ⟨tc, htc, rfl⟩ := hb
    obtain ⟨tc', htc', hsc⟩ := hrec tc htc
    rw [htc', Option.map_some']
    refine ⟨_, rfl, ?_⟩
    rw [totalsAdd_inputs, totalsAdd_inputs, hsc]
    show mapAdd [] (scaleMap a tc.inputs) = scaleMap a (mapAdd [] tc.inputs)
    exact (scaleMap_mapAdd a tc.inputs []).symm

theorem tallyChild_scaled (a : ℚ)
    (tn tn' : Product → Option DependencyResolutionTotals)
    (hrec : ∀ child child', ProductScaled a child child' →
      ∀ t, tn child = some t →
        ∃ t', tn' child' = some t' ∧ t'.inputs = scaleMap a t.inputs) :
    ∀ (child child' : Product), ProductScaled a child child' →
      ∀ b, tallyChild tn child = some b →
        ∃ b', tallyChild tn' child' = some b' ∧
          b'.inputs = scaleMap a b.inputs := by
  intro child child' hcc b hb
  obtain ⟨hcf⟩ := hcc
  simp only [tallyChild, Product.sources] at hb ⊢
  rw [Option.map_eq_some'] at hb
  obtain ⟨lc, hlc, rfl⟩ := hb
  obtain ⟨lc', hlc', hS⟩ := mapMO_rel
    (tallyChildSource_scaled a tn tn' _ _ (ProductScaled.mk hcf)
      (hrec _ _ (ProductScaled.mk hcf))) hcf hlc
  rw [hlc', Option.map_some']
  exact ⟨_, rfl, foldl_totalsAdd_inputs a hS _ _ rfl⟩

theorem tallyEntry_scaled (a : ℚ)
    (tn tn' : Product → Option DependencyResolutionTotals) (name : String)
    (hrec : ∀ child child', ProductScaled a child child' →
      ∀ t, tn child = some t →
        ∃ t', tn' child' = some t' ∧ t'.inputs = scaleMap a t.inputs) :
    ∀ (x x' : ℚ × Source), EntryScaled a x x' →
      ∀ b, tallyEntry tn name x = some b →
        ∃ b', tallyEntry tn' name x' = some b' ∧
          b'.inputs = scaleMap a b.inputs := by
  intro x x' hxx b hb
  cases hxx with
  | supply =>
    simp only [tallyEntry] at hb ⊢
    obtain rfl := Option.some_injective _ hb
    exact ⟨_, rfl, rfl⟩
  | byproduct =>
    simp only [tallyEntry] at hb ⊢
    obtain rfl := Option.some_injective _ hb
    exact ⟨_, rfl, rfl⟩
  | recipe hings =>
    simp only [tallyEntry] at hb ⊢
    rw [Option.map_eq_some'] at hb
    obtain ⟨le, hle, rfl⟩ := hb
    obtain ⟨le', hle', hS⟩ := mapMO_rel (tallyChild_scaled a tn tn' hrec)
      hings hle
    rw [hle', Option.map_some']
    exact ⟨_, rfl, foldl_totalsAdd_inputs a hS _ _ rfl⟩

theorem tallyNode_scaled : ∀ (fuel : ℕ) (a : ℚ) (p p' : Product),
    ProductScaled a p p' → ∀ t, tallyNode fuel p = some t →
      ∃ t', tallyNode fuel p' = some t' ∧ t'.inputs = scaleMap a t.inputs
  | 0, a, p, p', hp, t, h => by
    rw [tallyNode] at h; cases h
  | fuel + 1, a, p, p', hp, t, h => by
    obtain ⟨hf⟩ := hp
    rw [tallyNode, Option.map_eq_some'] at h
    obtain ⟨l, hl, rfl⟩ := h
    simp only [Product.sources, Product.name] at hl ⊢
    obtain ⟨l', hl', hS⟩ := mapMO_rel
      (tallyEntry_scaled a (fun c => tallyNode fuel c)
        (fun c => tallyNode fuel c) _
        (fun c c' hcc t ht => tallyNode_scaled fuel a c c' hcc t ht)) hf hl
    rw [tallyNode]
    simp only [Product.sources, Product.name]
    rw [hl', Option.map_some']
    exact ⟨_, rfl, foldl_totalsAdd_inputs a hS _ _ rfl⟩

theorem tallyTrees_scaled (fuel : ℕ) (a : ℚ)
    {trees trees' : List Product}
    (hrel : List.Forall₂ (ProductScaled a) trees trees')
    {t : DependencyResolutionTotals} (h : tallyTrees fuel trees = some t) :
    ∃ t', tallyTrees fuel trees' = some t' ∧
      t'.inputs = scaleMap a t.inputs := by
  rw [tallyTrees, Option.map_eq_some'] at h
  obtain ⟨l, hl, rfl⟩ := h
  have hstep : ∀ p p', ProductScaled a p p' → ∀ b,
      (fun p => (tallyNode fuel p).map fun tt =>
        totalsAdd { totalsEmpty with
          outputs := p.sources.foldl (fun acc qs => addTo acc p.name qs.1) [] }
          tt) p = some b →
      ∃ b', (fun p => (tallyNode fuel p).map fun tt =>
        totalsAdd { totalsEmpty with
          outputs := p.sources.foldl (fun acc qs => addTo acc p.name qs.1) [] }
          tt) p' = some b' ∧ b'.inputs = scaleMap a b.inputs := by
    intro p p' hpp b hb
    simp only [Option.map_eq_some'] at hb
    obtain ⟨tc, htc, rfl⟩ := hb
    obtain ⟨tc', htc', hsc⟩ := tallyNode_scaled fuel a p p' hpp tc htc
    refine ⟨totalsAdd { totalsEmpty with
      outputs := p'.sources.foldl (fun acc qs => addTo acc p'.name qs.1) [] }
      tc', ?_, ?_⟩
    · simp only [Option.map_eq_some']
      exact ⟨tc', htc', rfl⟩
    · rw [totalsAdd_inputs, totalsAdd_inputs, hsc]
      show mapAdd [] (scaleMap a tc.inputs) = scaleMap a (mapAdd [] tc.inputs)
      exact (scaleMap_mapAdd a tc.inputs []).symm
  obtain ⟨l', hl', hS⟩ := mapMO_rel hstep hrel hl
  rw [tallyTrees, hl', Option.map_some']
  exact ⟨_, rfl, foldl_totalsAdd_inputs a hS _ _ rfl⟩

/-- C3: under the scale-down strategy, whenever at least one explicitly
budgeted input has proportion strictly below 1, the code's scaling factor —
the lowest of all the supply proportions — equals the minimum over the
insufficient proportions, the scale-down step multiplies every numeric
quantity of every tree in the forest by that single factor, and after the
scaling every explicitly budgeted input satisfies its budget. -/
theorem scale_down_applies_min_insufficient (adjFuel tallyFuel : ℕ)
    (trees : List Product) (ingredients : QOMap)
    (totals : DependencyResolutionTotals)
    (ht : tallyTrees tallyFuel trees = some totals)
    (hpos : ∀ k q, alookup totals.inputs k = some q → 0 < q)
    (hbud : ∀ k b, alookup ingredients k = some (some b) → 0 ≤ b)
    (hins : (compute_supply_proportions totals.inputs ingredients).filter
      (fun kv => decide (kv.2 < 1)) ≠ []) :
    ∃ a,
      lowestOf ((compute_supply_proportions totals.inputs ingredients).map
        Prod.snd) = some a ∧
      lowestOf (((compute_supply_proportions totals.inputs
        ingredients).filter (fun kv => decide (kv.2 < 1))).map Prod.snd)
        = some a ∧
      scaleDownStep adjFuel
        (compute_supply_proportions totals.inputs ingredients) trees
        = mapMO (Product.adjust_quantities adjFuel a) trees ∧
      ∀ trees', mapMO (Product.adjust_quantities adjFuel a) trees
          = some trees' →
        List.Forall₂ (ProductScaled a) trees trees' ∧
        ∃ totals', tallyTrees tallyFuel trees' = some totals' ∧
          ∀ k b, alookup ingredients k = some (some b) →
            alookupD totals'.inputs k 0 ≤ b := by
  set props := compute_supply_proportions totals.inputs ingredients with hprops
  have hpne : props.map Prod.snd ≠ [] := by
    intro hemp
    rw [List.map_eq_nil_iff] at hemp
    rw [hemp] at hins
    exact hins rfl
  have hfil : (props.map Prod.snd).filter (fun q => decide (q < 1)) ≠ [] := by
    rw [← map_snd_filter_lt]
    intro hemp
    rcases List.exists_mem_of_ne_nil _ hins with ⟨x, hx⟩
    have : Prod.snd x ∈ ([] : List ℚ) := hemp ▸ List.mem_map_of_mem Prod.snd hx
    cases this
  obtain ⟨a, ha⟩ : ∃ a, lowestOf (props.map Prod.snd) = some a := by
    cases hl : lowestOf (props.map Prod.snd) with
    | none => exact absurd (lowestOf_eq_none.mp hl) hpne
    | some a => exact ⟨a, rfl⟩
  refine ⟨a, ha, ?_, ?_, ?_⟩
  · rw [map_snd_filter_lt, ← lowestOf_filter_lt_one hfil]
    exact ha
  · rw [scaleDownStep, ha]
  · intro trees' htr
    have hrel : List.Forall₂ (ProductScaled a) trees trees' :=
      (mapMO_forall₂ htr).imp fun p p' hp => adjust_scaled adjFuel a p p' hp
    refine ⟨hrel, ?_⟩
    obtain ⟨totals', htot', hsc⟩ := tallyTrees_scaled tallyFuel a hrel ht
    refine ⟨totals', htot', ?_⟩
    intro k b hkb
    rw [alookupD, hsc, alookup_scaleMap]
    cases hq : alookup totals.inputs k with
    | none =>
      simpa using hbud k b hkb
    | some q =>
      have hq0 : 0 < q := hpos k q hq
      have hmem : (k, b / q) ∈ props := by
        rw [hprops, compute_supply_proportions]
        rw [List.mem_filterMap]
        refine ⟨(k, some b), alookup_mem hkb, ?_⟩
        rw [hq]
        rfl
      have hle : a ≤ b / q :=
        lowestOf_le ha (b / q) (List.mem_map_of_mem Prod.snd hmem)
      have : q * a ≤ b := by
        rw [mul_comm]
        exact (le_div_iff₀ hq0).mp hle
      simpa using this

theorem scale_down_applies_min_insufficient_witness :
    ∃ a,
      lowestOf ((compute_supply_proportions exPlateTotals.inputs
        [("Iron Ore", some (15:ℚ))]).map Prod.snd) = some a ∧
      lowestOf (((compute_supply_proportions exPlateTotals.inputs
        [("Iron Ore", some (15:ℚ))]).filter
          (fun kv => decide (kv.2 < 1))).map Prod.snd) = some a ∧
      scaleDownStep 3 (compute_supply_proportions exPlateTotals.inputs
        [("Iron Ore", some (15:ℚ))]) [exPlateTree]
        = mapMO (Product.adjust_quantities 3 a) [exPlateTree] := by
  obtain ⟨a, h1, h2, h3, _⟩ := scale_down_applies_min_insufficient 3 3
    [exPlateTree] [("Iron Ore", some (15:ℚ))] exPlateTotals rfl
    (by
      intro k q h
      have h' : (if "Iron Ore" = k then some (30:ℚ) else none) = some q := h
      split at h'
      · obtain rfl : (30:ℚ) = q := Option.some_injective _ h'
        norm_num
      · cases h')
    (by
      intro k b h
      have h' : (if "Iron Ore" = k then some (some (15:ℚ)) else none)
          = some (some b) := h
      split at h'
      · obtain rfl : (15:ℚ) = b :=
          Option.some_injective _ (Option.some_injective _ h')
        norm_num
      · cases h')
    (by decide)
  exact ⟨a, h1, h2, h3⟩

/-!  Claim C6 — correctness of `nearest_perfect_split`. -/

theorem leastSat_sat (p : ℕ → Bool) :
    ∀ (fuel y0 : ℕ), p (y0 + fuel) = true → p (leastSat p fuel y0) = true
  | 0, y0, h => by rw [leastSat]; simpa using h
  | fuel + 1, y0, h => by
    rw [leastSat]
    cases hp : p y0 with
    | true => rw [if_pos rfl]; exact hp
    | false =>
      rw [if_neg Bool.false_ne_true]
      exact leastSat_sat p fuel (y0 + 1)
        (by rw [show y0 + 1 + fuel = y0 + (fuel + 1) from by omega]; exact h)

theorem leastSat_min (p : ℕ → Bool) :
    ∀ (fuel y0 y : ℕ), y0 ≤ y → y < leastSat p fuel y0 → p y = false
  | 0, y0, y, h1, h2 => by rw [leastSat] at h2; omega
  | fuel + 1, y0, y, h1, h2 => by
    rw [leastSat] at h2
    cases hp : p y0 with
    | true => rw [if_pos hp] at h2; omega
    | false =>
      rw [if_neg (by rw [hp]; exact Bool.false_ne_true)] at h2
      rcases Nat.eq_or_lt_of_le h1 with rfl | hlt
      · exact hp
      · exact leastSat_min p fuel (y0 + 1) y hlt h2

theorem cand_ge (n x : ℕ) : n ≤ cand n x := by
  have h := leastSat_sat (fun y => decide (n ≤ 2 ^ x * 3 ^ y)) n 0
    (by
      simp only [decide_eq_true_eq, Nat.zero_add]
      calc n ≤ 3 ^ n := Nat.le_of_lt (Nat.lt_pow_self (by norm_num) n)
        _ ≤ 2 ^ x * 3 ^ n := Nat.le_mul_of_pos_left _ (Nat.pos_pow_of_pos x
          (by norm_num)))
  rw [cand]
  simpa using h

theorem leastPow3_min (n x y : ℕ) (h : y < leastPow3 n x) :
    ¬ n ≤ 2 ^ x * 3 ^ y := by
  have := leastSat_min (fun y => decide (n ≤ 2 ^ x * 3 ^ y)) n 0 y
    (Nat.zero_le y) h
  simpa using this

theorem ceilLog2_sat (n : ℕ) : n ≤ 2 ^ ceilLog2 n := by
  have h := leastSat_sat (fun a => decide (n ≤ 2 ^ a)) n 0
    (by simp only [decide_eq_true_eq, Nat.zero_add]
        exact Nat.le_of_lt (Nat.lt_two_pow n))
  simpa using h

theorem leastPow3_ceilLog2 (n : ℕ) : leastPow3 n (ceilLog2 n) = 0 := by
  by_contra h
  have hpos : 0 < leastPow3 n (ceilLog2 n) := Nat.pos_of_ne_zero h
  have := leastPow3_min n (ceilLog2 n) 0 hpos
  simp only [pow_zero, Nat.mul_one] at this
  exact this (ceilLog2_sat n)

theorem cand_le_of_sat (n x b : ℕ) (h : n ≤ 2 ^ x * 3 ^ b) :
    cand n x ≤ 2 ^ x * 3 ^ b := by
  have hb : leastPow3 n x ≤ b := by
    by_contra hb
    exact leastPow3_min n x b (Nat.lt_of_not_le hb) h
  rw [cand]
  exact Nat.mul_le_mul_left _ (Nat.pow_le_pow_right (by norm_num) hb)

theorem splitUpd_lastY_ypow3 (n x : ℕ) (st : SplitState)
    (h : st.ypow3 = 3 ^ st.lastY) :
    (splitUpd n x st).lastY = leastPow3 n x ∧
      (splitUpd n x st).ypow3 = 3 ^ leastPow3 n x := by
  rw [splitUpd]
  split
  · rename_i h1
    split
    · rename_i h2
      refine ⟨rfl, ?_⟩
      show st.ypow3 / 3 = 3 ^ leastPow3 n x
      rw [h, show st.lastY = (st.lastY - 1) + 1 from by omega, pow_succ,
        Nat.mul_div_cancel _ (by norm_num), h2]
    · exact ⟨rfl, rfl⟩
  · rename_i h1
    have h1' : leastPow3 n x = st.lastY := by
      by_contra hc
      exact h1 hc
    exact ⟨h1'.symm, by rw [h, h1']⟩

theorem splitLoop_inv (n : ℕ) :
    ∀ (m k : ℕ) (st : SplitState) (a v : ℕ),
      st.xpow2 = 2 ^ k →
      st.ypow3 = 3 ^ st.lastY →
      st.result = some (a, leastPow3 n a, v) →
      st.closest = some (v - n) →
      v = cand n a →
      n ≤ v →
      (∀ x, x < k → v ≤ cand n x) →
      ∃ a' v', (splitLoop n (List.range' k m) st).result
          = some (a', leastPow3 n a', v') ∧
        v' = cand n a' ∧ n ≤ v' ∧ ∀ x, x < k + m → v' ≤ cand n x
  | 0, k, st, a, v, hx, hy, hr, hc, hv, hnv, hall => by
    rw [show List.range' k 0 = [] from rfl, splitLoop]
    exact ⟨a, v, hr, hv, hnv, fun x hx => hall x (by omega)⟩
  | m + 1, k, st, a, v, hx, hy, hr, hc, hv, hnv, hall => by
    obtain ⟨hY1, hY2⟩ := splitUpd_lastY_ypow3 n k st hy
    have hX : (splitUpd n k st).xpow2 = 2 ^ k := by rw [splitUpd_xpow2, hx]
    have hR : (splitUpd n k st).result = some (a, leastPow3 n a, v) := by
      rw [splitUpd_result, hr]
    have hC : (splitUpd n k st).closest = some (v - n) := by
      rw [splitUpd_closest, hc]
    have hge := cand_ge n k
    rw [List.range'_succ]
    simp only [splitLoop, hX, hY2, hC, hR, decide_eq_true_eq]
    have hcand : (2 : ℕ) ^ k * 3 ^ leastPow3 n k = cand n k := rfl
    rw [hcand]
    by_cases hlt : cand n k < v
    · rw [if_pos (by omega : cand n k - n < v - n)]
      by_cases hzero : cand n k - n = 0
      · rw [if_pos hzero]
        refine ⟨k, cand n k, rfl, rfl, hge, ?_⟩
        intro x hx'
        rw [show cand n k = n from by omega]
        exact cand_ge n x
      · rw [if_neg hzero]
        obtain ⟨a', v', h1, h2, h3, h4⟩ := splitLoop_inv n m (k + 1)
          ⟨some (k, leastPow3 n k, cand n k), some (cand n k - n),
            2 ^ k * 2, (splitUpd n k st).lastY, 3 ^ leastPow3 n k⟩
          k (cand n k)
          (by show 2 ^ k * 2 = 2 ^ (k + 1); rw [pow_succ])
          (by show 3 ^ leastPow3 n k = 3 ^ (splitUpd n k st).lastY;
              rw [hY1])
          rfl rfl rfl hge
          (by
            intro x hx'
            rcases Nat.lt_or_ge x k with hxk | hxk
            · exact Nat.le_of_lt (Nat.lt_of_lt_of_le hlt (hall x hxk))
            · rw [show x = k from by omega])
        exact ⟨a', v', h1, h2, h3, fun x hx' => h4 x (by omega)⟩
    · rw [if_neg (by omega : ¬ cand n k - n < v - n)]
      have hvc : v ≤ cand n k := by omega
      obtain ⟨a', v', h1, h2, h3, h4⟩ := splitLoop_inv n m (k + 1)
        ⟨some (a, leastPow3 n a, v), some (v - n),
          2 ^ k * 2, (splitUpd n k st).lastY, 3 ^ leastPow3 n k⟩
        a v
        (by show 2 ^ k * 2 = 2 ^ (k + 1); rw [pow_succ])
        (by show 3 ^ leastPow3 n k = 3 ^ (splitUpd n k st).lastY;
            rw [hY1])
        rfl rfl hv hnv
        (by
          intro x hx'
          rcases Nat.lt_or_ge x k with hxk | hxk
          · exact hall x hxk
          · rw [show x = k from by omega]; exact hvc)
      exact ⟨a', v', h1, h2, h3, fun x hx' => h4 x (by omega)⟩

theorem log_three_near :
    |Real.log 3 - 73899452813794797180911 / 67266180777551979983760| ≤
      1 / 10 ^ 9 := by
  have t : |(3⁻¹ : ℝ)| = 3⁻¹ := by rw [abs_of_pos]; norm_num
  have z := Real.abs_log_sub_add_sum_range_le
    (show |(3⁻¹ : ℝ)| < 1 by rw [t]; norm_num) 22
  rw [t] at z
  rw [show (1 : ℝ) - 3⁻¹ = 2 / 3 by norm_num] at z
  rw [show Real.log (2 / 3) = Real.log 2 - Real.log 3 from
    Real.log_div (by norm_num) (by norm_num)] at z
  simp_rw [Finset.sum_range_succ] at z
  norm_num1 at z
  have h2 := Real.log_two_near_10
  rw [abs_le] at z h2 ⊢
  constructor <;> linarith

/-- Certification of the constant `lnc31104`: the real `ln 31104` lies
strictly within half an ulp (`2^-21` at this magnitude) of it, so
`lnc31104` is the unique binary32 value every faithfully rounded `logf`
returns at `31104`. -/
theorem lnc31104_near_log :
    |Real.log 31104 - ((lnc31104 : ℚ) : ℝ)| < 1 / 2 ^ 21 := by
  rw [show ((lnc31104 : ℚ) : ℝ) = 10847615 / 2 ^ 20 by
    norm_num [lnc31104]]
  rw [show (31104 : ℝ) = 2 ^ 7 * 3 ^ 5 by norm_num,
    Real.log_mul (by positivity) (by positivity), Real.log_pow,
    Real.log_pow]
  push_cast
  have h2 := Real.log_two_near_10
  have h3 := log_three_near
  rw [abs_le] at h2 h3
  rw [abs_lt]
  constructor <;> linarith

set_option maxRecDepth 10000 in
/-- C6 counterexample: under bit-exact binary32 arithmetic the program is
not minimal on the claimed range `[1, 100000]`.  At `c = 31104 = 2^7 * 3^5`
the closure computes, at `x = 7`,
`-FRAC_LN_2_LN_3 * 7 + b = 5.000000476…` — one ulp above `5` — and ceils
it to `6`, so the loop probes `2^7 * 3^6 = 93312` instead of the exact
split `31104`; the search then finishes with `(15, 0, 32768)`, although
`31104` itself is of the form `2^a * 3^b` and `31104 ≤ 31104 < 32768`.
(The probed split values along this run are `59049, 39366, 78732, 52488,
34992, 69984, 46656, 93312, 62208, 41472, 82944, 55296, 36864, 73728,
49152, 32768`, all above `31104`, so the `u32` subtraction never
underflows.) -/
theorem nearest_perfect_split_f32_not_minimal :
    nearest_perfect_split_f32 lnc31104 31104 = some (15, 0, 32768) ∧
    (2 : ℕ) ^ 7 * 3 ^ 5 = 31104 ∧ 31104 < 32768 := by
  refine ⟨?_, by norm_num, by norm_num⟩
  decide

/-- C6 amended: under the exact-arithmetic idealization of the two f32
logarithms (`leastPow3`/`ceilLog2`), for every `n` in the claimed range
`nearest_perfect_split n` returns `some (a, b, v)` with `v = 2^a * 3^b`,
`v ≥ n`, and no value of the form `2^a' * 3^b'` lies in `[n, v)`.  The
program's binary32 evaluation of the logarithm expressions does not
satisfy this minimality everywhere in the range: at `n = 31104` it skips
the exact split and returns `(15, 0, 32768)` (see
`nearest_perfect_split_f32`). -/
theorem nearest_perfect_split_correct (n : ℕ) (h1 : 1 ≤ n)
    (h2 : n ≤ 100000) :
    ∃ a b v, nearest_perfect_split n = some (a, b, v) ∧
      v = 2 ^ a * 3 ^ b ∧ n ≤ v ∧
      ∀ a' b', n ≤ 2 ^ a' * 3 ^ b' → v ≤ 2 ^ a' * 3 ^ b' := by
  have hge0 := cand_ge n 0
  have hst0 : ((⟨none, none, 1, leastPow3 n 0, 3 ^ leastPow3 n 0⟩ :
      SplitState)).ypow3 = 3 ^ ((⟨none, none, 1, leastPow3 n 0,
      3 ^ leastPow3 n 0⟩ : SplitState)).lastY := rfl
  obtain ⟨hY1, hY2⟩ := splitUpd_lastY_ypow3 n 0 _ hst0
  have hX0 : (splitUpd n 0 ⟨none, none, 1, leastPow3 n 0,
      3 ^ leastPow3 n 0⟩).xpow2 = 1 := by
    rw [splitUpd_xpow2]
  have hC0 : (splitUpd n 0 ⟨none, none, 1, leastPow3 n 0,
      3 ^ leastPow3 n 0⟩).closest = none := by
    rw [splitUpd_closest]
  have hc0 : (1 : ℕ) * 3 ^ leastPow3 n 0 = cand n 0 := by
    rw [cand, pow_zero]
  simp only [nearest_perfect_split, List.range_eq_range', List.range'_succ,
    Nat.zero_add]
  simp only [splitLoop, hC0, hX0, hY2]
  rw [hc0, if_pos trivial]
  by_cases hzero : cand n 0 - n = 0
  · rw [if_pos hzero]
    refine ⟨0, leastPow3 n 0, cand n 0, rfl, rfl, hge0, ?_⟩
    intro a2 b2 hsat
    calc cand n 0 = n := by omega
      _ ≤ 2 ^ a2 * 3 ^ b2 := hsat
  · rw [if_neg hzero]
    obtain ⟨a', v', h1', h2', h3', h4'⟩ := splitLoop_inv n (ceilLog2 n) 1
      ⟨some (0, leastPow3 n 0, cand n 0), some (cand n 0 - n), 1 * 2,
        (splitUpd n 0 ⟨none, none, 1, leastPow3 n 0,
          3 ^ leastPow3 n 0⟩).lastY,
        3 ^ leastPow3 n 0⟩
      0 (cand n 0)
      (by show (1 : ℕ) * 2 = 2 ^ 1; norm_num)
      (by show (3 : ℕ) ^ leastPow3 n 0 = 3 ^ (splitUpd n 0 (⟨none, none, 1,
            leastPow3 n 0, 3 ^ leastPow3 n 0⟩ : SplitState)).lastY
          rw [hY1])
      rfl rfl rfl hge0
      (by intro x hx; rw [show x = 0 from by omega])
    refine ⟨a', leastPow3 n a', v', h1', by rw [h2', cand], h3', ?_⟩
    intro a2 b2 hsat
    rcases Nat.lt_or_ge (ceilLog2 n) a2 with hgt | hle
    · calc v' ≤ cand n (ceilLog2 n) := h4' (ceilLog2 n) (by omega)
        _ = 2 ^ ceilLog2 n := by
            rw [cand, leastPow3_ceilLog2, pow_zero, Nat.mul_one]
        _ ≤ 2 ^ a2 := Nat.pow_le_pow_right (by norm_num) (by omega)
        _ ≤ 2 ^ a2 * 3 ^ b2 := Nat.le_mul_of_pos_right _
            (Nat.pos_pow_of_pos b2 (by norm_num))
    · exact Nat.le_trans (h4' a2 (by omega)) (cand_le_of_sat n a2 b2 hsat)

/-- Witness for C6 at the concrete input `n = 7` (where the split is
`(3, 0, 8)`). -/
theorem nearest_perfect_split_correct_witness :
    (1 ≤ 7 ∧ 7 ≤ 100000) ∧
    ∃ a b v, nearest_perfect_split 7 = some (a, b, v) ∧
      v = 2 ^ a * 3 ^ b ∧ 7 ≤ v ∧
      ∀ a' b', 7 ≤ 2 ^ a' * 3 ^ b' → v ≤ 2 ^ a' * 3 ^ b' :=
  ⟨⟨by norm_num, by norm_num⟩,
    nearest_perfect_split_correct 7 (by norm_num) (by norm_num)⟩
